import Mathlib

/-!
# Merlian frontend — formal model and verification

Shallow embedding of the Merlian frontend (romanI04/merlian):
the `Sidebar` component (`queryTokens`, `highlightOcr`, `escapeHtml`),
the API client `dispict/src/lib/api.ts` (`loadSuggestions` and its
result mapping), and the application shell `dispict/src/App.svelte`
(`refreshStatus`, `runIndex`, `startPersonalDemo`, `startFullIndex`).

JavaScript strings are modelled as Lean `String`/`List Char`; the
ASCII-simple fragment of the Unicode case mapping is used for
`toLowerCase` and the `i` regex flag (the code only ever distinguishes
ASCII alphanumerics, so non-ASCII characters act as opaque letters).
JSON `number` fields carrying counts are modelled as `Nat`; score and
geometry fields are modelled as `Rat`, a real-number stand-in for JS
float arithmetic (no claim depends on rounding).  Optional / nullable
JSON fields are `Option` values, and the JavaScript truthiness tests
performed by the code are translated explicitly at each use site.
-/

namespace Merlian

/-! ## Character classes (from the regexes in the source) -/

/-- ASCII alphanumerics, the class `[a-zA-Z0-9]` used by `queryTokens`. -/
def isAlnumAscii (c : Char) : Bool :=
  ('a' ≤ c && c ≤ 'z') || ('A' ≤ c && c ≤ 'Z') || ('0' ≤ c && c ≤ '9')

/-- ASCII/Unicode-simple lowercasing of one character (JS `toLowerCase`
restricted to the mapping that matters for `[a-zA-Z0-9]` tokenization). -/
def lowerChar (c : Char) : Char :=
  if 'A' ≤ c && c ≤ 'Z' then Char.ofNat (c.toNat + 32) else c

/-- Whitespace class of the JS regex `\s` / `String.trim` (ASCII part). -/
def isWs (c : Char) : Bool :=
  c = ' ' || c = '\t' || c = '\n' || c = '\r' || c = Char.ofNat 11 || c = Char.ofNat 12

/-! ## JS `String.prototype.split` on a one-class regex `C+`

`jsSplitOn sep l` models `s.split(/C+/)` where `sep` decides membership
in the character class `C`: maximal runs of class characters are single
separators, and a leading/trailing run contributes an empty field, as in
JavaScript (`",a,,b,".split(/,+/) = ["", "a", "b", ""]`). -/

def jsSplitOn (sep : Char → Bool) : List Char → List (List Char)
  | [] => [[]]
  | c :: rest =>
    let r := jsSplitOn sep rest
    if sep c then
      match rest with
      | [] => [] :: r
      | d :: _ => if sep d then r else [] :: r
    else
      match r with
      | g :: gs => (c :: g) :: gs
      | [] => [[c]]

/-! ## `Sidebar` — `queryTokens` (src/dispict/src/lib/api.ts lines 448–451,
src/unnamed/part_000 lines 53–56)

```js
$: queryTokens = query
  ? query.toLowerCase().split(/[^a-zA-Z0-9]+/).filter((t) => t.length >= 2)
  : (artwork.matched_tokens ?? []);
```

`matched` is `artwork.matched_tokens ?? []`. -/

def toLowerStr (s : String) : String :=
  String.mk (s.toList.map lowerChar)

def queryTokens (query : String) (matched : List String) : List String :=
  if query = "" then matched
  else
    ((jsSplitOn (fun c => !isAlnumAscii c) (toLowerStr query).toList).map
        (fun l => String.mk l)).filter (fun t => t.length ≥ 2)

/-! ## Generic string containment (JS `String.prototype.includes`) -/

/-- `t.isPrefixOf s` decided by hand, so its unfolding stays elementary. -/
def leadsList (t s : List Char) : Bool :=
  match t, s with
  | [], _ => true
  | _ :: _, [] => false
  | a :: t', b :: s' => a = b && leadsList t' s'

/-- `containsSeq t s`: `t` occurs as a contiguous subsequence of `s`. -/
def containsSeq (t : List Char) : List Char → Bool
  | [] => t.isEmpty
  | c :: rest => leadsList t (c :: rest) || containsSeq t rest

/-- JS `s.includes(t)`. -/
def includesStr (s t : String) : Bool :=
  containsSeq t.toList s.toList

/-! ## `Sidebar` — `escapeHtml` (src/unnamed/part_000 lines 49–51)

```js
function escapeHtml(s) {
  return s.replace(/&/g, "&amp;").replace(/</g, "&lt;")
          .replace(/>/g, "&gt;").replace(/"/g, "&quot;");
}
```
-/

/-- JS `s.replace(/c/g, r)` for a single literal character `c`. -/
def replaceAllChar (s : List Char) (c : Char) (r : List Char) : List Char :=
  s.flatMap (fun d => if d = c then r else [d])

def escapeHtmlL (s : List Char) : List Char :=
  replaceAllChar
    (replaceAllChar
      (replaceAllChar
        (replaceAllChar s '&' "&amp;".toList)
        '<' "&lt;".toList)
      '>' "&gt;".toList)
    '"' "&quot;".toList

def escapeHtml (s : String) : String :=
  String.mk (escapeHtmlL s.toList)

/-- Per-character form of `escapeHtmlL` (the sequential `replace` chain
never rewrites its own insertions, so the chain acts character-wise). -/
def escapeChar (c : Char) : List Char :=
  if c = '&' then ['&', 'a', 'm', 'p', ';']
  else if c = '<' then ['&', 'l', 't', ';']
  else if c = '>' then ['&', 'g', 't', ';']
  else if c = '"' then ['&', 'q', 'u', 'o', 't', ';']
  else [c]

/-! ## `Sidebar` — `highlightOcr` (src/unnamed/part_000 lines 36–47)

```js
function highlightOcr(text, tokens) {
  if (!text || !tokens?.length) return escapeHtml(text || "");
  let escaped = escapeHtml(text);
  for (const token of tokens) {
    if (!token) continue;
    const escapedToken = escapeHtml(token);
    const re = new RegExp(`(${...regex-escaped escapedToken...})`, "gi");
    escaped = escaped.replace(re, "<mark>$1</mark>");
  }
  return escaped;
}
```

The constructed regex is the regex-escaped `escapedToken` (all regex
metacharacters are escaped by the source), so one `replace` call is a
case-insensitive literal global replacement: a left-to-right scan that,
at each position, either wraps a case-insensitive match of the pattern
in `<mark>`/`</mark>` (keeping the matched original characters) and
resumes after it, or keeps one character.  `markReplaceAux` is that
scan, with a structural fuel argument bounding the number of steps. -/

def markTag : List Char := "<mark>".toList

def markClose : List Char := "</mark>".toList

/-- Case-insensitive "starts with" (JS `i` flag, ASCII-simple folding). -/
def ciStartsWith (pat s : List Char) : Bool :=
  leadsList (pat.map lowerChar) (s.map lowerChar)

def markReplaceAux (pat : List Char) : Nat → List Char → List Char
  | _, [] => []
  | 0, s => s
  | f + 1, c :: rest =>
    if ciStartsWith pat (c :: rest) then
      markTag ++ (c :: rest).take pat.length ++ markClose
        ++ markReplaceAux pat f ((c :: rest).drop pat.length)
    else c :: markReplaceAux pat f rest

/-- One `escaped.replace(re, "<mark>$1</mark>")` pass (`pat` non-empty in
every call the source makes, since empty tokens are skipped). -/
def markReplace (pat s : List Char) : List Char :=
  markReplaceAux pat s.length s

def highlightOcr (text : String) (tokens : List String) : String :=
  if text = "" || tokens.isEmpty then escapeHtml text
  else
    String.mk
      (tokens.foldl
        (fun esc tok =>
          if tok = "" then esc
          else markReplace (escapeHtmlL tok.toList) esc)
        (escapeHtmlL text.toList))

/-! ### Observers used to state the highlighting claims -/

/-- Remove every inserted `<mark>` / `</mark>` tag, left to right. -/
def stripMarksAux : Nat → List Char → List Char
  | _, [] => []
  | 0, s => s
  | f + 1, c :: rest =>
    if leadsList markTag (c :: rest) then stripMarksAux f ((c :: rest).drop 6)
    else if leadsList markClose (c :: rest) then stripMarksAux f ((c :: rest).drop 7)
    else c :: stripMarksAux f rest

def stripMarks (s : List Char) : List Char :=
  stripMarksAux s.length s

/-- Every `<` begins a complete `<mark>` or `</mark>` tag and every `>`
terminates one (the structural reading of "`<` and `>` appear only as
delimiters of the inserted tags"). -/
def tagsOkAux : Nat → List Char → Bool
  | _, [] => true
  | 0, _ => false
  | f + 1, c :: rest =>
    if c = '<' then
      (leadsList "mark>".toList rest && tagsOkAux f (rest.drop 5))
        || (leadsList "/mark>".toList rest && tagsOkAux f (rest.drop 6))
    else if c = '>' then false
    else tagsOkAux f rest

def tagsOk (s : List Char) : Bool :=
  tagsOkAux s.length s

/-- Case-insensitive occurrence of `pat` somewhere in `s`. -/
def ciOccurs (pat s : List Char) : Bool :=
  containsSeq (pat.map lowerChar) (s.map lowerChar)

/-! ## `api.ts` — URLs and request plumbing (src/dispict/src/lib/api.ts) -/

/-- JS `String.prototype.split` on a single literal character (every
occurrence is a separator; adjacent separators yield empty fields). -/
def jsSplitChar (sep : Char) : List Char → List (List Char)
  | [] => [[]]
  | c :: rest =>
    if c = sep then [] :: jsSplitChar sep rest
    else
      match jsSplitChar sep rest with
      | g :: gs => (c :: g) :: gs
      | [] => [[c]]

/-- `path.split("/").slice(-1)[0] ?? path` from the result mapping. -/
def lastSegment (path : String) : String :=
  (((jsSplitChar '/' path.toList).map (fun l => String.mk l)).getLast?).getD path

/-- `baseUrl` (api.ts lines 68–70): `url.endsWith("/") ? url.slice(0, -1)
: url` — the last character is dropped when it is a slash. -/
def baseUrl (url : String) : String :=
  if url.toList.getLast? = some '/' then String.mk url.toList.dropLast else url

/-- Default of `VITE_DEMO_API_URL` (api.ts lines 52–54). -/
def DEMO_API_URL : String := "https://ekzhang--dispict-suggestions.modal.run/"

/-- Default of `VITE_LOCAL_API_URL` (api.ts lines 56–58). -/
def LOCAL_API_URL : String := "http://127.0.0.1:8008"

def demoBase : String := baseUrl DEMO_API_URL

def localBase : String := baseUrl LOCAL_API_URL

/-- UTF-8 bytes of a single code point, as `Nat`s below 256. -/
def utf8Bytes (n : Nat) : List Nat :=
  if n < 128 then [n]
  else if n < 2048 then [192 + n / 64, 128 + n % 64]
  else if n < 65536 then [224 + n / 4096, 128 + n / 64 % 64, 128 + n % 64]
  else [240 + n / 262144, 128 + n / 4096 % 64, 128 + n / 64 % 64, 128 + n % 64]

def hexDigit (n : Nat) : Char :=
  if n < 10 then Char.ofNat (48 + n) else Char.ofNat (55 + n)

/-- Characters `encodeURIComponent` leaves unescaped. -/
def uriUnreserved (c : Char) : Bool :=
  isAlnumAscii c || c = '-' || c = '_' || c = '.' || c = '!'
    || c = '~' || c = '*' || c = Char.ofNat 39 || c = '(' || c = ')'

/-- JS `encodeURIComponent`: percent-encode the UTF-8 bytes of every
reserved character. -/
def encodeURIComponent (s : String) : String :=
  String.mk
    (s.toList.flatMap (fun c =>
      if uriUnreserved c then [c]
      else (utf8Bytes c.toNat).flatMap
        (fun b => ['%', hexDigit (b / 16), hexDigit (b % 16)])))

/-! ## `api.ts` — result types and the `loadSuggestions` mapping

`Artwork` mirrors the TS type (api.ts lines 5–45).  JSON numbers that
feed geometry (`dimheight`, `dimwidth`) are modelled as `Rat`, a
real-number stand-in for JS float arithmetic; no claim depends on them. -/

structure Artwork where
  id : Nat
  objectnumber : String
  url : String
  image_url : String
  dimensions : String
  dimheight : Rat
  dimwidth : Rat
  title : Option String
  description : Option String
  labeltext : Option String
  people : List String
  dated : String
  datebegin : Nat
  dateend : Nat
  century : Option String
  department : String
  division : Option String
  culture : Option String
  classification : String
  technique : Option String
  medium : Option String
  accessionyear : Option Nat
  verificationlevel : Nat
  totaluniquepageviews : Nat
  totalpageviews : Nat
  copyright : Option String
  creditline : String
  matched_tokens : List String
  file_size : Nat
  created_at : Nat
  folder : String
  ocr_word_count : Nat
  deriving Repr, DecidableEq

structure SearchResult where
  score : Rat
  artwork : Artwork
  deriving Repr, DecidableEq

/-- One element of the `/search` (or `/demo-search`) response's
`results` array; absent/nullable JSON fields are `Option`s. -/
structure RawSearchResult where
  score : Option Rat := none
  path : String
  thumb_url : Option String := none
  width : Option Nat := none
  height : Option Nat := none
  created_at : Option Nat := none
  folder : Option String := none
  ocr_preview : Option String := none
  matched_tokens : Option (List String) := none
  file_size : Option Nat := none
  deriving Repr, DecidableEq

/-- `s.trim()` (JS trims the same whitespace class as `\s`). -/
def jsTrim (l : List Char) : List Char :=
  ((l.dropWhile isWs).reverse.dropWhile isWs).reverse

/-- api.ts lines 110–111:
```js
const ocrText = (r.ocr_preview as string) || "";
const ocrWordCount = ocrText.trim() ? ocrText.trim().split(/\s+/).length : 0;
```
-/
def ocrWordCount (p : Option String) : Nat :=
  let ocrText := (p.getD "").toList
  if jsTrim ocrText = [] then 0
  else (jsSplitOn isWs (jsTrim ocrText)).length

/-- Specification-side count of maximal runs of non-`sep` characters
("maximal whitespace-separated words" when `sep = isWs`): the state
records whether the previous character belonged to a run. -/
def countRunsAux (sep : Char → Bool) : Bool → List Char → Nat
  | _, [] => 0
  | inRun, c :: rest =>
    if sep c then countRunsAux sep false rest
    else (if inRun then 0 else 1) + countRunsAux sep true rest

def countMaxRuns (sep : Char → Bool) (l : List Char) : Nat :=
  countRunsAux sep false l

/-- The body map of one result (api.ts lines 105–164 local branch, lines
188–246 demo branch; the two blocks differ only in the width/height
defaults and the base URL, so they share this definition).
`fmtDate` stands for `(ts) => new Date(ts * 1000).toLocaleDateString()`. -/
def mapResult (wDef hDef : Nat) (base : String) (fmtDate : Nat → String)
    (total : Nat) (i : Nat) (r : RawSearchResult) : SearchResult :=
  let w := r.width.getD wDef
  let h := r.height.getD hDef
  let path := r.path
  let filename := lastSegment path
  let ocrText := r.ocr_preview.getD ""
  let rankScale : Rat := 13 / 10 - 7 / 10 * ((i : Rat) / (total : Rat))
  let artwork : Artwork :=
    { id := i
      objectnumber := filename
      url := path
      image_url :=
        base ++
          (match r.thumb_url with
           | some t => if t ≠ "" then (if t.startsWith "/" then t else "/" ++ t) else ""
           | none => "")
      dimensions := Nat.repr w ++ "×" ++ Nat.repr h ++ "px"
      dimheight := (h : Rat) / 55 * rankScale
      dimwidth := (w : Rat) / 55 * rankScale
      title := some filename
      description := if ocrText ≠ "" then some ocrText else none
      labeltext := none
      people := []
      dated := if r.created_at.getD 0 ≠ 0 then fmtDate (r.created_at.getD 0) else ""
      datebegin := 0
      dateend := 0
      century := none
      department := ""
      division := none
      culture := none
      classification := "Screenshot"
      technique := none
      medium := none
      accessionyear := none
      verificationlevel := 0
      totaluniquepageviews := 0
      totalpageviews := 0
      copyright := none
      creditline := ""
      matched_tokens := r.matched_tokens.getD []
      file_size := r.file_size.getD 0
      created_at := r.created_at.getD 0
      folder := r.folder.getD ""
      ocr_word_count := ocrWordCount r.ocr_preview }
  { score := r.score.getD 0, artwork := artwork }

/-- `const total = results.length || 1` and the indexed `map`. -/
def mapLocalResults (fmtDate : Nat → String) (rs : List RawSearchResult) :
    List SearchResult :=
  let total := if rs.length = 0 then 1 else rs.length
  rs.mapIdx (fun i r => mapResult 1200 800 localBase fmtDate total i r)

def mapDemoResults (fmtDate : Nat → String) (rs : List RawSearchResult) :
    List SearchResult :=
  let total := if rs.length = 0 then 1 else rs.length
  rs.mapIdx (fun i r => mapResult 1440 900 localBase fmtDate total i r)

/-- JSON body `{query: text, k: n ?? 64, mode: "hybrid"}` (api.ts line 91;
the demo branch sends the same body on line 172). -/
structure SearchBody where
  query : String
  k : Nat
  mode : String
  deriving Repr, DecidableEq

def localSearchBody (text : String) (n : Option Nat) : SearchBody :=
  { query := text, k := n.getD 64, mode := "hybrid" }

structure PostRequest where
  path : String
  body : SearchBody
  deriving Repr, DecidableEq

/-- The requests the local branch of `loadSuggestions` issues: one POST
to `/search` (api.ts lines 88–93), nothing else. -/
def loadSuggestionsLocalRequests (text : String) (n : Option Nat) :
    List PostRequest :=
  [{ path := localBase ++ "/search", body := localSearchBody text n }]

/-- `throw new Error(`Local search failed: ${resp.status}`)` (line 98). -/
def localSearchFailureMsg (status : Nat) : String :=
  "Local search failed: " ++ Nat.repr status

/-- Local branch outcome as a function of the response (`ok`, `status`,
parsed `results`): api.ts lines 95–164. -/
def loadSuggestionsLocalOutcome (fmtDate : Nat → String) (ok : Bool)
    (status : Nat) (results : List RawSearchResult) :
    Except String (List SearchResult) :=
  if ok then .ok (mapLocalResults fmtDate results)
  else .error (localSearchFailureMsg status)

/-- Fallback URL of the demo branch (api.ts lines 178–179):
```js
let url = demoBase() + "?text=" + encodeURIComponent(text);
if (n) url += "&n=" + n;
```
-/
def demoFallbackUrl (text : String) (n : Option Nat) : String :=
  let url := demoBase ++ "?text=" ++ encodeURIComponent text
  match n with
  | some m => if m ≠ 0 then url ++ "&n=" ++ Nat.repr m else url
  | none => url

/-- Demo branch behaviour on the `/demo-search` response: parse and map
on `ok`, otherwise fall back to a GET of the upstream demo API and
return its JSON unchanged (api.ts lines 176–186); no throw on `!ok`. -/
inductive DemoSearchOutcome where
  | parsed (results : List SearchResult)
  | fallbackFetch (url : String)
  deriving Repr, DecidableEq

def loadSuggestionsDemoOutcome (fmtDate : Nat → String) (text : String)
    (n : Option Nat) (ok : Bool) (results : List RawSearchResult) :
    DemoSearchOutcome :=
  if ok then .parsed (mapDemoResults fmtDate results)
  else .fallbackFetch (demoFallbackUrl text n)

/-! ## `App.svelte` — folder selection and the two indexing actions
(src/dispict/src/App.svelte lines 201–228) -/

structure DetectedFolder where
  path : String
  count : Nat
  accessible : Bool
  selected : Bool
  deriving Repr, DecidableEq

/-- The request body `startPersonalDemo` / `startFullIndex` build;
`max_items` is `none` when the field is omitted from the payload. -/
structure IndexRequest where
  folders : List String
  ocr : Bool
  device : String
  recent_only : Bool
  max_items : Option Nat
  deriving Repr, DecidableEq

/-- Lines 202–205 / 217–220: the selected detected-folder paths, plus the
custom folder when it is shown and non-empty (JS truthiness of a string). -/
def selectedPaths (detected : List DetectedFolder) (showCustomFolder : Bool)
    (customFolder : String) : List String :=
  ((detected.filter (fun f => f.selected)).map (fun f => f.path))
    ++ (if showCustomFolder ∧ customFolder ≠ "" then [customFolder] else [])

/-- `startPersonalDemo` (lines 201–214): `none` models the early
`return` that submits nothing. -/
def startPersonalDemo (detected : List DetectedFolder) (showCustomFolder : Bool)
    (customFolder : String) : Option IndexRequest :=
  let sp := selectedPaths detected showCustomFolder customFolder
  if sp = [] then none
  else some
    { folders := sp, ocr := true, device := "auto",
      recent_only := true, max_items := some 200 }

/-- `startFullIndex` (lines 216–228): same folders, `recent_only: false`,
no `max_items` field. -/
def startFullIndex (detected : List DetectedFolder) (showCustomFolder : Bool)
    (customFolder : String) : Option IndexRequest :=
  let sp := selectedPaths detected showCustomFolder customFolder
  if sp = [] then none
  else some
    { folders := sp, ocr := true, device := "auto",
      recent_only := false, max_items := none }

/-- The `disabled` condition of both the "Build personal demo" and the
"Full index" buttons (lines 355–366):
`indexing || detectedFolders.filter(f => f.selected).length === 0`. -/
def indexButtonsDisabled (indexing : Bool) (detected : List DetectedFolder) : Bool :=
  indexing || decide ((detected.filter (fun f => f.selected)).length = 0)

/-! ## `App.svelte` — `refreshStatus` (lines 44–66) -/

/-- The `/status` response body (read-only projection of the store). -/
structure StatusResponse where
  indexed : Bool
  assets : Nat
  with_ocr : Nat
  last_indexed_at : Option String
  deriving Repr, DecidableEq

structure StatusView where
  statusLine : String
  lastIndexedLabel : String
  deriving Repr, DecidableEq

/-- The single request `refreshStatus` issues: a bodyless GET (the bare
`fetch(apiBase() + "/status")`); it never posts to `/index` or any
other mutating endpoint. -/
structure GetRequest where
  method : String
  path : String
  deriving Repr, DecidableEq

def refreshStatusRequests : List GetRequest :=
  [{ method := "GET", path := localBase ++ "/status" }]

/-- `refreshStatus` as a function of the response.  `resp = none` models
a failed fetch / unparsable body (the `catch` branch).  `fmtLocale`
stands for `new Date(v).toLocaleString()`.  `prevLabel` is the previous
value of `lastIndexedLabel`, which the early returns leave untouched. -/
def refreshStatusView (fmtLocale : String → String)
    (resp : Option StatusResponse) (prevLabel : String) : StatusView :=
  match resp with
  | none =>
    { statusLine := "Local engine not running (start API server on :8008)"
      lastIndexedLabel := prevLabel }
  | some data =>
    if !data.indexed then
      { statusLine := "Not indexed yet", lastIndexedLabel := prevLabel }
    else
      { statusLine :=
          "Indexed " ++ Nat.repr data.assets ++ " items • OCR "
            ++ Nat.repr data.with_ocr ++ "/" ++ Nat.repr data.assets
        lastIndexedLabel :=
          match data.last_indexed_at with
          | some v => if v ≠ "" then "Last indexed: " ++ fmtLocale v else ""
          | none => "" }

/-! ## `App.svelte` — `runIndex` and its polling loop (lines 128–179) -/

/-- One polled `/jobs/{id}` snapshot (the job-status contract). -/
structure JobSnapshot where
  status : String
  processed : Nat
  total : Nat
  message : Option String
  error : Option String
  deriving Repr, DecidableEq

/-- Status line while polling (lines 147–151): progress counter when
`j.total` is truthy, otherwise `j.message ?? default`. -/
def duringStatusLine (recentOnly : Bool) (j : JobSnapshot) : String :=
  if j.total ≠ 0 then
    (if recentOnly then "Building personal demo" else "Indexing")
      ++ "… " ++ Nat.repr j.processed ++ "/" ++ Nat.repr j.total
  else
    j.message.getD (if recentOnly then "Building personal demo…" else "Indexing…")

/-- Status line assigned when a job reaches `done` (lines 153–160). -/
def doneStatusLine (recentOnly : Bool) (message : Option String) : String :=
  let msg := message.getD ""
  if !recentOnly && includesStr msg "+0 new" && includesStr msg "~0 updated"
      && includesStr msg "-0 removed" then
    "Index up to date"
  else if recentOnly then "Personal demo ready!"
  else "Index updated"

/-- What one iteration of `while (true)` decides (lines 145–166). -/
inductive PollResult where
  | finished (line : String)
  | failed (errMsg : String)
  | pending
  deriving Repr, DecidableEq

/-- The polling loop over the observed snapshot sequence: stop on
`done` (success), throw on `error` / `cancelled`, otherwise sleep and
poll again.  `.pending` means the observed sequence ran out with the
loop still polling. -/
def pollLoop (recentOnly : Bool) : List JobSnapshot → PollResult
  | [] => .pending
  | j :: rest =>
    if j.status = "done" then .finished (doneStatusLine recentOnly j.message)
    else if j.status = "error" then .failed ((j.error).getD "Index failed")
    else if j.status = "cancelled" then .failed "Index cancelled"
    else pollLoop recentOnly rest

/-- Post-state of `runIndex` (after `catch`/`finally`, before the final
`refreshStatus()` overwrites the status line): `thrown` records the
error the `catch` received, `indexing`/`currentJobId` the cleared
flags. -/
structure RunIndexOutcome where
  statusLine : String
  indexing : Bool
  currentJobId : Option String
  thrown : Option String
  deriving Repr, DecidableEq

def catchStatusLine (recentOnly : Bool) : String :=
  if recentOnly then "Personal demo failed" else "Index failed"

/-- `runIndex` over the observed job-status snapshots.  `jobId` is
`data?.job_id` of the `/index` response (`none` throws before the
loop); `none` overall means the loop was still polling when the
observed sequence ended. -/
def runIndexOutcome (recentOnly : Bool) (jobId : Option String)
    (snaps : List JobSnapshot) : Option RunIndexOutcome :=
  match jobId with
  | none =>
    some
      { statusLine := catchStatusLine recentOnly, indexing := false,
        currentJobId := none, thrown := some "No job_id returned" }
  | some _ =>
    match pollLoop recentOnly snaps with
    | .pending => none
    | .finished line =>
      some
        { statusLine := line, indexing := false,
          currentJobId := none, thrown := none }
    | .failed e =>
      some
        { statusLine := catchStatusLine recentOnly, indexing := false,
          currentJobId := none, thrown := some e }

/-! # Helper lemmas -/

/-! ## `leadsList` / `containsSeq` -/

theorem leadsList_iff {t s : List Char} : leadsList t s = true ↔ ∃ v, s = t ++ v := by
  induction t generalizing s with
  | nil => simp [leadsList]
  | cons a t' ih =>
    cases s with
    | nil => simp [leadsList]
    | cons b s' =>
      simp only [leadsList, Bool.and_eq_true, decide_eq_true_eq, ih,
        List.cons_append, List.cons.injEq]
      constructor
      · rintro ⟨rfl, v, rfl⟩
        exact ⟨v, rfl, rfl⟩
      · rintro ⟨v, rfl, rfl⟩
        exact ⟨rfl, v, rfl⟩

theorem containsSeq_iff {t s : List Char} :
    containsSeq t s = true ↔ ∃ u v, s = u ++ t ++ v := by
  induction s with
  | nil =>
    simp only [containsSeq, List.isEmpty_iff]
    constructor
    · rintro rfl
      exact ⟨[], [], rfl⟩
    · rintro ⟨u, v, huv⟩
      rcases List.append_eq_nil.mp huv.symm with ⟨h1, _⟩
      exact (List.append_eq_nil.mp h1).2
  | cons c rest ih =>
    simp only [containsSeq, Bool.or_eq_true, leadsList_iff, ih]
    constructor
    · rintro (⟨v, hv⟩ | ⟨u, v, huv⟩)
      · exact ⟨[], v, by simpa using hv⟩
      · exact ⟨c :: u, v, by simp [huv]⟩
    · rintro ⟨u, v, huv⟩
      cases u with
      | nil => exact Or.inl ⟨v, by simpa using huv⟩
      | cons b u' =>
        rcases List.cons.injEq .. ▸ huv with ⟨_, h⟩
        exact Or.inr ⟨u', v, by simpa using h⟩

theorem leadsList_append (t v : List Char) : leadsList t (t ++ v) = true :=
  leadsList_iff.mpr ⟨v, rfl⟩

theorem containsSeq_of_append {t u v s : List Char} (h : s = u ++ t ++ v) :
    containsSeq t s = true :=
  containsSeq_iff.mpr ⟨u, v, h⟩

/-! ## `jsSplitOn`: fields contain only original, non-separator characters -/

theorem jsSplitOn_chars {sep : Char → Bool} :
    ∀ {l : List Char}, ∀ g ∈ jsSplitOn sep l, ∀ c ∈ g, c ∈ l ∧ sep c = false := by
  intro l
  induction l with
  | nil => simp [jsSplitOn]
  | cons a rest ih =>
    intro g hg c hc
    by_cases ha : sep a
    · simp only [jsSplitOn, ha, if_true] at hg
      have hg' : g ∈ jsSplitOn sep rest ∨ g = [] := by
        cases rest with
        | nil =>
          rcases List.mem_cons.mp hg with h | h
          · exact Or.inr h
          · exact Or.inl h
        | cons d r =>
          by_cases hd : sep d
          · simp only [hd, if_true] at hg
            exact Or.inl hg
          · simp only [hd, if_false] at hg
            rcases List.mem_cons.mp hg with h | h
            · exact Or.inr h
            · exact Or.inl h
      rcases hg' with h | rfl
      · rcases ih g h c hc with ⟨h1, h2⟩
        exact ⟨List.mem_cons_of_mem a h1, h2⟩
      · simp at hc
    · simp only [jsSplitOn, ha, Bool.false_eq_true, if_false] at hg
      rcases hr : jsSplitOn sep rest with _ | ⟨g0, gs⟩
      · rw [hr] at hg
        simp only [List.mem_singleton] at hg
        subst hg
        rcases List.mem_singleton.mp hc with rfl
        exact ⟨List.mem_cons_self _ _, by simpa using ha⟩
      · rw [hr] at hg
        rcases List.mem_cons.mp hg with rfl | h
        · rcases List.mem_cons.mp hc with rfl | h
          · exact ⟨List.mem_cons_self _ _, by simpa using ha⟩
          · rcases ih g0 (hr ▸ List.mem_cons_self _ _) c h with ⟨h1, h2⟩
            exact ⟨List.mem_cons_of_mem a h1, h2⟩
        · rcases ih g (hr ▸ List.mem_cons_of_mem g0 h) c hc with ⟨h1, h2⟩
          exact ⟨List.mem_cons_of_mem a h1, h2⟩

/-! ## `Char` arithmetic for the lowercase-mapping -/

theorem char_le_iff_toNat {a b : Char} : a ≤ b ↔ a.toNat ≤ b.toNat := by
  rw [Char.le_def]
  exact ⟨fun h => h, fun h => h⟩

theorem toNat_ofNat_valid (n : Nat) (h : n < 55296) : (Char.ofNat n).toNat = n := by
  rw [Char.ofNat, dif_pos (Or.inl (by omega))]
  simp [Char.ofNatAux, Char.toNat, UInt32.ofNat', UInt32.toNat]

/-- `lowerChar` never outputs an ASCII uppercase letter. -/
theorem lowerChar_not_upper (c : Char) :
    ¬ ('A' ≤ lowerChar c ∧ lowerChar c ≤ 'Z') := by
  unfold lowerChar
  by_cases h : ('A' ≤ c && c ≤ 'Z') = true
  · simp only [h, if_true]
    rcases Bool.and_eq_true .. ▸ h with ⟨h1, h2⟩
    have hc1 : 65 ≤ c.toNat := char_le_iff_toNat.mp (of_decide_eq_true h1)
    have hc2 : c.toNat ≤ 90 := char_le_iff_toNat.mp (of_decide_eq_true h2)
    have hv : (Char.ofNat (c.toNat + 32)).toNat = c.toNat + 32 :=
      toNat_ofNat_valid _ (by omega)
    rintro ⟨_, hb⟩
    have := char_le_iff_toNat.mp hb
    rw [hv] at this
    have : c.toNat + 32 ≤ 90 := by
      simpa using this
    omega
  · simp only [h, Bool.false_eq_true, if_false]
    intro hab
    exact h (by simp [char_le_iff_toNat.mp hab.1, char_le_iff_toNat.mp hab.2,
      decide_eq_true_eq, hab.1, hab.2])

/-! ## `escapeHtml` -/

theorem escapeHtmlL_eq_flatMap (s : List Char) :
    escapeHtmlL s = s.flatMap escapeChar := by
  have single : ∀ c : Char, escapeHtmlL [c] = escapeChar c := by
    intro c
    by_cases h1 : c = '&'
    · subst h1; decide
    by_cases h2 : c = '<'
    · subst h2; decide
    by_cases h3 : c = '>'
    · subst h3; decide
    by_cases h4 : c = '"'
    · subst h4; decide
    simp [escapeHtmlL, replaceAllChar, escapeChar, h1, h2, h3, h4]
  induction s with
  | nil => rfl
  | cons c rest ih =>
    have split : escapeHtmlL (c :: rest) = escapeHtmlL [c] ++ escapeHtmlL rest := by
      simp [escapeHtmlL, replaceAllChar]
    rw [split, single, ih]
    simp

theorem escapeChar_mem {d c : Char} (h : c ∈ escapeChar d) :
    c ≠ '<' ∧ c ≠ '>' ∧ c ≠ '"' := by
  unfold escapeChar at h
  by_cases h1 : d = '&'
  · rw [if_pos h1] at h
    simp only [List.mem_cons, List.not_mem_nil, or_false] at h
    rcases h with rfl | rfl | rfl | rfl | rfl <;> exact ⟨by decide, by decide, by decide⟩
  rw [if_neg h1] at h
  by_cases h2 : d = '<'
  · rw [if_pos h2] at h
    simp only [List.mem_cons, List.not_mem_nil, or_false] at h
    rcases h with rfl | rfl | rfl | rfl <;> exact ⟨by decide, by decide, by decide⟩
  rw [if_neg h2] at h
  by_cases h3 : d = '>'
  · rw [if_pos h3] at h
    simp only [List.mem_cons, List.not_mem_nil, or_false] at h
    rcases h with rfl | rfl | rfl | rfl <;> exact ⟨by decide, by decide, by decide⟩
  rw [if_neg h3] at h
  by_cases h4 : d = '"'
  · rw [if_pos h4] at h
    simp only [List.mem_cons, List.not_mem_nil, or_false] at h
    rcases h with rfl | rfl | rfl | rfl | rfl | rfl <;> exact ⟨by decide, by decide, by decide⟩
  rw [if_neg h4] at h
  rcases List.mem_singleton.mp h with rfl
  exact ⟨h2, h3, h4⟩

theorem escapeHtmlL_clean {s : List Char} {c : Char} (h : c ∈ escapeHtmlL s) :
    c ≠ '<' ∧ c ≠ '>' ∧ c ≠ '"' := by
  rw [escapeHtmlL_eq_flatMap] at h
  rcases List.mem_flatMap.mp h with ⟨d, _, hd⟩
  exact escapeChar_mem hd

theorem escapeChar_ne_nil (c : Char) : escapeChar c ≠ [] := by
  unfold escapeChar
  by_cases h1 : c = '&' <;> by_cases h2 : c = '<' <;> by_cases h3 : c = '>'
    <;> by_cases h4 : c = '"' <;> simp [h1, h2, h3, h4]

theorem escapeHtmlL_ne_nil {s : List Char} (h : s ≠ []) : escapeHtmlL s ≠ [] := by
  rcases s with _ | ⟨c, rest⟩
  · exact absurd rfl h
  · rw [escapeHtmlL_eq_flatMap]
    simp only [List.flatMap_cons, ne_eq, List.append_eq_nil, not_and]
    intro hc
    exact absurd hc (escapeChar_ne_nil c)

theorem toList_eq_nil_iff {s : String} : s.toList = [] ↔ s = "" := by
  cases s with
  | mk data =>
    constructor
    · intro h
      have hd : data = [] := h
      subst hd
      rfl
    · intro h
      have hd : String.mk data = String.mk [] := h
      have : data = [] := congrArg String.data hd
      exact this

/-! ## `markReplace`: fuel irrelevance and unfolding equations -/

theorem markTag_eq : markTag = ['<', 'm', 'a', 'r', 'k', '>'] := rfl

theorem markClose_eq : markClose = ['<', '/', 'm', 'a', 'r', 'k', '>'] := rfl

theorem markReplaceAux_fuel {pat : List Char} (hp : pat ≠ []) :
    ∀ f g s, s.length ≤ f → s.length ≤ g →
      markReplaceAux pat f s = markReplaceAux pat g s := by
  have hp1 : 1 ≤ pat.length := List.length_pos.mpr hp
  intro f
  induction f with
  | zero =>
    intro g s hf _
    rw [List.eq_nil_of_length_eq_zero (Nat.le_zero.mp hf)]
    cases g <;> rfl
  | succ f ih =>
    intro g s hf hg
    cases s with
    | nil => cases g <;> rfl
    | cons c rest =>
      have hr : rest.length ≤ f := by
        simpa using hf
      cases g with
      | zero => simp at hg
      | succ g' =>
        have hr' : rest.length ≤ g' := by
          simpa using hg
        by_cases h : ciStartsWith pat (c :: rest) = true
        · simp only [markReplaceAux, h, if_true]
          have hd : ((c :: rest).drop pat.length).length ≤ f := by
            simp only [List.length_drop, List.length_cons]
            omega
          have hd' : ((c :: rest).drop pat.length).length ≤ g' := by
            simp only [List.length_drop, List.length_cons]
            omega
          rw [ih g' _ hd hd']
        · simp only [markReplaceAux, h, Bool.false_eq_true, if_false]
          rw [ih g' rest hr hr']

theorem markReplace_cons_pos {pat : List Char} (hp : pat ≠ []) {c : Char}
    {rest : List Char} (h : ciStartsWith pat (c :: rest) = true) :
    markReplace pat (c :: rest) =
      markTag ++ (c :: rest).take pat.length ++ markClose
        ++ markReplace pat ((c :: rest).drop pat.length) := by
  have hp1 : 1 ≤ pat.length := List.length_pos.mpr hp
  show markReplaceAux pat (rest.length + 1) (c :: rest) = _
  simp only [markReplaceAux, h, if_true]
  rw [markReplaceAux_fuel hp rest.length ((c :: rest).drop pat.length).length _
    (by simp only [List.length_drop, List.length_cons]; omega) le_rfl]
  rfl

theorem markReplace_cons_neg {pat : List Char} {c : Char} {rest : List Char}
    (h : ciStartsWith pat (c :: rest) = false) :
    markReplace pat (c :: rest) = c :: markReplace pat rest := by
  show markReplaceAux pat (rest.length + 1) (c :: rest) = _
  simp only [markReplaceAux, h, Bool.false_eq_true, if_false]
  rfl

/-! ## `stripMarks`: fuel irrelevance and unfolding equations -/

theorem stripMarksAux_fuel :
    ∀ f g s, s.length ≤ f → s.length ≤ g → stripMarksAux f s = stripMarksAux g s := by
  intro f
  induction f with
  | zero =>
    intro g s hf _
    rw [List.eq_nil_of_length_eq_zero (Nat.le_zero.mp hf)]
    cases g <;> rfl
  | succ f ih =>
    intro g s hf hg
    cases s with
    | nil => cases g <;> rfl
    | cons c rest =>
      have hr : rest.length ≤ f := by simpa using hf
      cases g with
      | zero => simp at hg
      | succ g' =>
        have hr' : rest.length ≤ g' := by simpa using hg
        have hd6 : ((c :: rest).drop 6).length ≤ f := by
          simp only [List.length_drop, List.length_cons]; omega
        have hd6' : ((c :: rest).drop 6).length ≤ g' := by
          simp only [List.length_drop, List.length_cons]; omega
        have hd7 : ((c :: rest).drop 7).length ≤ f := by
          simp only [List.length_drop, List.length_cons]; omega
        have hd7' : ((c :: rest).drop 7).length ≤ g' := by
          simp only [List.length_drop, List.length_cons]; omega
        by_cases h1 : leadsList markTag (c :: rest) = true
        · simp only [stripMarksAux, h1, if_true]
          rw [ih g' _ hd6 hd6']
        · by_cases h2 : leadsList markClose (c :: rest) = true
          · simp only [stripMarksAux, h1, h2, Bool.false_eq_true, if_false, if_true]
            rw [ih g' _ hd7 hd7']
          · simp only [stripMarksAux, h1, h2, Bool.false_eq_true, if_false]
            rw [ih g' rest hr hr']

theorem stripMarks_cons (c : Char) (rest : List Char) :
    stripMarks (c :: rest) =
      if leadsList markTag (c :: rest) then stripMarks ((c :: rest).drop 6)
      else if leadsList markClose (c :: rest) then stripMarks ((c :: rest).drop 7)
      else c :: stripMarks rest := by
  show stripMarksAux (rest.length + 1) (c :: rest) = _
  by_cases h1 : leadsList markTag (c :: rest) = true
  · simp only [stripMarksAux, h1, if_true]
    exact stripMarksAux_fuel rest.length _ _
      (by simp only [List.length_drop, List.length_cons]; omega) le_rfl
  · by_cases h2 : leadsList markClose (c :: rest) = true
    · simp only [stripMarksAux, h1, h2, Bool.false_eq_true, if_false, if_true]
      exact stripMarksAux_fuel rest.length _ _
        (by simp only [List.length_drop, List.length_cons]; omega) le_rfl
    · simp only [stripMarksAux, h1, h2, Bool.false_eq_true, if_false]
      rfl

theorem stripMarks_cons_clean {c : Char} (h : c ≠ '<') (rest : List Char) :
    stripMarks (c :: rest) = c :: stripMarks rest := by
  rw [stripMarks_cons]
  have h1 : leadsList markTag (c :: rest) = false := by
    rw [markTag_eq]
    simp [leadsList, Ne.symm h]
  have h2 : leadsList markClose (c :: rest) = false := by
    rw [markClose_eq]
    simp [leadsList, Ne.symm h]
  simp [h1, h2]

theorem stripMarks_markTag (y : List Char) :
    stripMarks (markTag ++ y) = stripMarks y := by
  show stripMarks ('<' :: 'm' :: 'a' :: 'r' :: 'k' :: '>' :: y) = stripMarks y
  rw [stripMarks_cons]
  have h1 : leadsList markTag ('<' :: 'm' :: 'a' :: 'r' :: 'k' :: '>' :: y) = true := by
    simpa using leadsList_append markTag y
  simp [h1]

theorem stripMarks_markClose (y : List Char) :
    stripMarks (markClose ++ y) = stripMarks y := by
  show stripMarks ('<' :: '/' :: 'm' :: 'a' :: 'r' :: 'k' :: '>' :: y) = stripMarks y
  rw [stripMarks_cons]
  have h1 : leadsList markTag ('<' :: '/' :: 'm' :: 'a' :: 'r' :: 'k' :: '>' :: y) = false := by
    simp [markTag_eq, leadsList]
  have h2 : leadsList markClose ('<' :: '/' :: 'm' :: 'a' :: 'r' :: 'k' :: '>' :: y) = true := by
    simpa using leadsList_append markClose y
  simp [h1, h2]

theorem stripMarks_append_clean {x : List Char} (hx : ∀ c ∈ x, c ≠ '<')
    (y : List Char) : stripMarks (x ++ y) = x ++ stripMarks y := by
  induction x with
  | nil => rfl
  | cons c rest ih =>
    rw [List.cons_append, stripMarks_cons_clean (hx c (List.mem_cons_self c rest)),
      ih (fun d hd => hx d (List.mem_cons_of_mem c hd))]
    rfl

/-! ## `tagsOk`: fuel irrelevance and unfolding equations -/

theorem tagsOkAux_fuel :
    ∀ f g s, s.length ≤ f → s.length ≤ g → tagsOkAux f s = tagsOkAux g s := by
  intro f
  induction f with
  | zero =>
    intro g s hf _
    rw [List.eq_nil_of_length_eq_zero (Nat.le_zero.mp hf)]
    cases g <;> rfl
  | succ f ih =>
    intro g s hf hg
    cases s with
    | nil => cases g <;> rfl
    | cons c rest =>
      have hr : rest.length ≤ f := by simpa using hf
      cases g with
      | zero => simp at hg
      | succ g' =>
        have hr' : rest.length ≤ g' := by simpa using hg
        have hd5 : (rest.drop 5).length ≤ f := by
          simp only [List.length_drop]; omega
        have hd5' : (rest.drop 5).length ≤ g' := by
          simp only [List.length_drop]; omega
        have hd6 : (rest.drop 6).length ≤ f := by
          simp only [List.length_drop]; omega
        have hd6' : (rest.drop 6).length ≤ g' := by
          simp only [List.length_drop]; omega
        simp only [tagsOkAux]
        rw [ih g' (rest.drop 5) hd5 hd5', ih g' (rest.drop 6) hd6 hd6',
          ih g' rest hr hr']

theorem tagsOk_cons (c : Char) (rest : List Char) :
    tagsOk (c :: rest) =
      if c = '<' then
        (leadsList "mark>".toList rest && tagsOk (rest.drop 5))
          || (leadsList "/mark>".toList rest && tagsOk (rest.drop 6))
      else if c = '>' then false
      else tagsOk rest := by
  show tagsOkAux (rest.length + 1) (c :: rest) = _
  simp only [tagsOkAux]
  rw [tagsOkAux_fuel rest.length (rest.drop 5).length (rest.drop 5)
      (by simp only [List.length_drop]; omega) le_rfl,
    tagsOkAux_fuel rest.length (rest.drop 6).length (rest.drop 6)
      (by simp only [List.length_drop]; omega) le_rfl]
  rfl

theorem tagsOk_cons_clean {c : Char} (h1 : c ≠ '<') (h2 : c ≠ '>')
    (rest : List Char) : tagsOk (c :: rest) = tagsOk rest := by
  rw [tagsOk_cons, if_neg h1, if_neg h2]

theorem tagsOk_markTag (y : List Char) : tagsOk (markTag ++ y) = tagsOk y := by
  show tagsOk ('<' :: 'm' :: 'a' :: 'r' :: 'k' :: '>' :: y) = tagsOk y
  rw [tagsOk_cons]
  have h1 : leadsList ['m', 'a', 'r', 'k', '>'] ('m' :: 'a' :: 'r' :: 'k' :: '>' :: y) = true :=
    leadsList_append ['m', 'a', 'r', 'k', '>'] y
  have h2 : leadsList ['/', 'm', 'a', 'r', 'k', '>'] ('m' :: 'a' :: 'r' :: 'k' :: '>' :: y) = false := by
    simp [leadsList]
  simp [h1, h2]

theorem tagsOk_markClose (y : List Char) : tagsOk (markClose ++ y) = tagsOk y := by
  show tagsOk ('<' :: '/' :: 'm' :: 'a' :: 'r' :: 'k' :: '>' :: y) = tagsOk y
  rw [tagsOk_cons]
  have h1 : leadsList ['m', 'a', 'r', 'k', '>'] ('/' :: 'm' :: 'a' :: 'r' :: 'k' :: '>' :: y) = false := by
    simp [leadsList]
  have h2 : leadsList ['/', 'm', 'a', 'r', 'k', '>'] ('/' :: 'm' :: 'a' :: 'r' :: 'k' :: '>' :: y) = true :=
    leadsList_append ['/', 'm', 'a', 'r', 'k', '>'] y
  simp [h1, h2]

theorem tagsOk_append_clean {x : List Char} (hx : ∀ c ∈ x, c ≠ '<' ∧ c ≠ '>')
    (y : List Char) : tagsOk (x ++ y) = tagsOk y := by
  induction x with
  | nil => rfl
  | cons c rest ih =>
    rcases hx c (List.mem_cons_self c rest) with ⟨h1, h2⟩
    rw [List.cons_append, tagsOk_cons_clean h1 h2,
      ih (fun d hd => hx d (List.mem_cons_of_mem c hd))]

theorem tagsOk_clean {x : List Char} (hx : ∀ c ∈ x, c ≠ '<' ∧ c ≠ '>') :
    tagsOk x = true := by
  have := tagsOk_append_clean hx []
  simpa using this

/-! ## Main properties of one `markReplace` pass -/

/-- A pass only inserts tags: removing them recovers the scanned string
(on strings free of raw `<`, as every HTML-escaped string is). -/
theorem stripMarks_markReplace {pat : List Char} (hp : pat ≠ []) :
    ∀ s : List Char, (∀ c ∈ s, c ≠ '<') →
      stripMarks (markReplace pat s) = s := by
  have hp1 : 1 ≤ pat.length := List.length_pos.mpr hp
  have main : ∀ n s, s.length ≤ n → (∀ c ∈ s, c ≠ '<') →
      stripMarks (markReplace pat s) = s := by
    intro n
    induction n with
    | zero =>
      intro s h1 _
      rw [List.eq_nil_of_length_eq_zero (Nat.le_zero.mp h1)]
      rfl
    | succ n ih =>
      intro s hlen hcl
      cases s with
      | nil => rfl
      | cons c rest =>
        have hr : rest.length ≤ n := by simpa using hlen
        by_cases hm : ciStartsWith pat (c :: rest) = true
        · rw [markReplace_cons_pos hp hm, List.append_assoc, List.append_assoc,
            stripMarks_markTag,
            stripMarks_append_clean
              (fun d hd => hcl d (List.take_subset pat.length (c :: rest) hd)) _,
            stripMarks_markClose,
            ih ((c :: rest).drop pat.length)
              (by simp only [List.length_drop, List.length_cons]; omega)
              (fun d hd => hcl d (List.drop_subset pat.length (c :: rest) hd))]
          exact List.take_append_drop _ _
        · rw [markReplace_cons_neg (Bool.not_eq_true _ ▸ hm),
            stripMarks_cons_clean (hcl c (List.mem_cons_self c rest)),
            ih rest hr (fun d hd => hcl d (List.mem_cons_of_mem c hd))]
  exact fun s => main s.length s le_rfl

/-- On a string free of raw `<` and `>`, one pass produces only complete,
properly delimited `<mark>`/`</mark>` tags. -/
theorem tagsOk_markReplace {pat : List Char} (hp : pat ≠ []) :
    ∀ s : List Char, (∀ c ∈ s, c ≠ '<' ∧ c ≠ '>') →
      tagsOk (markReplace pat s) = true := by
  have hp1 : 1 ≤ pat.length := List.length_pos.mpr hp
  have main : ∀ n s, s.length ≤ n → (∀ c ∈ s, c ≠ '<' ∧ c ≠ '>') →
      tagsOk (markReplace pat s) = true := by
    intro n
    induction n with
    | zero =>
      intro s h1 _
      rw [List.eq_nil_of_length_eq_zero (Nat.le_zero.mp h1)]
      rfl
    | succ n ih =>
      intro s hlen hcl
      cases s with
      | nil => rfl
      | cons c rest =>
        have hr : rest.length ≤ n := by simpa using hlen
        by_cases hm : ciStartsWith pat (c :: rest) = true
        · rw [markReplace_cons_pos hp hm, List.append_assoc, List.append_assoc,
            tagsOk_markTag,
            tagsOk_append_clean
              (fun d hd => hcl d (List.take_subset pat.length (c :: rest) hd)) _,
            tagsOk_markClose]
          exact ih ((c :: rest).drop pat.length)
            (by simp only [List.length_drop, List.length_cons]; omega)
            (fun d hd => hcl d (List.drop_subset pat.length (c :: rest) hd))
        · rcases hcl c (List.mem_cons_self c rest) with ⟨hc1, hc2⟩
          rw [markReplace_cons_neg (Bool.not_eq_true _ ▸ hm),
            tagsOk_cons_clean hc1 hc2]
          exact ih rest hr (fun d hd => hcl d (List.mem_cons_of_mem c hd))
  exact fun s => main s.length s le_rfl

/-- Every character of a pass's output comes from the scanned string or
from an inserted tag — token text itself is never copied to the output. -/
theorem mem_markReplace {pat : List Char} (hp : pat ≠ []) :
    ∀ (s : List Char) (c : Char), c ∈ markReplace pat s →
      c ∈ s ∨ c ∈ markTag ∨ c ∈ markClose := by
  have hp1 : 1 ≤ pat.length := List.length_pos.mpr hp
  have main : ∀ n s, s.length ≤ n → ∀ c, c ∈ markReplace pat s →
      c ∈ s ∨ c ∈ markTag ∨ c ∈ markClose := by
    intro n
    induction n with
    | zero =>
      intro s h1 c hc
      rw [List.eq_nil_of_length_eq_zero (Nat.le_zero.mp h1)] at hc
      simp [markReplace, markReplaceAux] at hc
    | succ n ih =>
      intro s hlen c hc
      cases s with
      | nil => simp [markReplace, markReplaceAux] at hc
      | cons a rest =>
        have hr : rest.length ≤ n := by simpa using hlen
        by_cases hm : ciStartsWith pat (a :: rest) = true
        · rw [markReplace_cons_pos hp hm] at hc
          simp only [List.append_assoc, List.mem_append] at hc
          rcases hc with h | h | h | h
          · exact Or.inr (Or.inl h)
          · exact Or.inl (List.take_subset pat.length (a :: rest) h)
          · exact Or.inr (Or.inr h)
          · rcases ih ((a :: rest).drop pat.length)
                (by simp only [List.length_drop, List.length_cons]; omega) c h with
              h' | h'
            · exact Or.inl (List.drop_subset pat.length (a :: rest) h')
            · exact Or.inr h'
        · rw [markReplace_cons_neg (Bool.not_eq_true _ ▸ hm)] at hc
          rcases List.mem_cons.mp hc with rfl | h
          · exact Or.inl (List.mem_cons_self c rest)
          · rcases ih rest hr c h with h' | h'
            · exact Or.inl (List.mem_cons_of_mem a h')
            · exact Or.inr h'
  exact fun s => main s.length s le_rfl

/-- A pass inserts a `<mark>` tag iff the pattern occurs
case-insensitively in the scanned string. -/
theorem containsSeq_markTag_markReplace {pat : List Char} (hp : pat ≠ []) :
    ∀ s : List Char, (∀ c ∈ s, c ≠ '<') →
      (containsSeq markTag (markReplace pat s) = true ↔ ciOccurs pat s = true) := by
  have main : ∀ n s, s.length ≤ n → (∀ c ∈ s, c ≠ '<') →
      (containsSeq markTag (markReplace pat s) = true ↔ ciOccurs pat s = true) := by
    intro n
    induction n with
    | zero =>
      intro s h1 _
      rw [List.eq_nil_of_length_eq_zero (Nat.le_zero.mp h1)]
      show containsSeq markTag [] = true ↔ _
      simp only [containsSeq, ciOccurs, List.map_nil]
      constructor
      · intro h
        simp [markTag_eq, List.isEmpty] at h
      · intro h
        rcases List.exists_mem_of_ne_nil pat hp with ⟨x, _⟩
        simp [List.isEmpty_iff, List.map_eq_nil_iff] at h
        exact absurd h hp
    | succ n ih =>
      intro s hlen hcl
      cases s with
      | nil =>
        show containsSeq markTag [] = true ↔ _
        simp only [containsSeq, ciOccurs, List.map_nil]
        constructor
        · intro h
          simp [markTag_eq, List.isEmpty] at h
        · intro h
          simp [List.isEmpty_iff, List.map_eq_nil_iff] at h
          exact absurd h hp
      | cons a rest =>
        have hr : rest.length ≤ n := by simpa using hlen
        by_cases hm : ciStartsWith pat (a :: rest) = true
        · constructor
          · intro _
            show containsSeq (pat.map lowerChar) ((a :: rest).map lowerChar) = true
            simp only [List.map_cons, containsSeq, Bool.or_eq_true]
            exact Or.inl hm
          · intro _
            rw [markReplace_cons_pos hp hm]
            exact containsSeq_iff.mpr ⟨[], List.take pat.length (a :: rest)
              ++ (markClose ++ markReplace pat (List.drop pat.length (a :: rest))),
              by simp⟩
        · have hstep : markReplace pat (a :: rest) = a :: markReplace pat rest :=
            markReplace_cons_neg (Bool.not_eq_true _ ▸ hm)
          have hlead : leadsList markTag (a :: markReplace pat rest) = false := by
            rw [markTag_eq]
            simp [leadsList, Ne.symm (hcl a (List.mem_cons_self a rest))]
          have hm' : ciStartsWith pat (a :: rest) = false := by
            simpa using hm
          have hocc : ciOccurs pat (a :: rest) = ciOccurs pat rest := by
            show (ciStartsWith pat (a :: rest) || ciOccurs pat rest) = ciOccurs pat rest
            rw [hm']
            simp
          rw [hstep, hocc]
          show (leadsList markTag (a :: markReplace pat rest)
              || containsSeq markTag (markReplace pat rest)) = true ↔ _
          rw [hlead]
          simp only [Bool.false_or]
          exact ih rest hr (fun d hd => hcl d (List.mem_cons_of_mem a hd))
  exact fun s => main s.length s le_rfl

/-- `ciOccurs` as an explicit decomposition. -/
theorem ciOccurs_iff {pat s : List Char} :
    ciOccurs pat s = true ↔
      ∃ u m v, s = u ++ m ++ v ∧ m.map lowerChar = pat.map lowerChar := by
  unfold ciOccurs
  rw [containsSeq_iff]
  constructor
  · rintro ⟨u', v', huv⟩
    rcases List.map_eq_append_iff.mp huv with ⟨x, y, hxy, hx, hy⟩
    rcases List.map_eq_append_iff.mp hx with ⟨u, m, hum, hu, hm⟩
    exact ⟨u, m, y, by rw [hxy, hum], hm⟩
  · rintro ⟨u, m, v, rfl, hm⟩
    exact ⟨u.map lowerChar, v.map lowerChar, by simp [hm]⟩

/-! ## `highlightOcr` unfolding -/

theorem highlightOcr_empty {text : String} {tokens : List String}
    (h : text = "" ∨ tokens = []) : highlightOcr text tokens = escapeHtml text := by
  unfold highlightOcr
  rcases h with rfl | rfl
  · simp
  · simp

theorem highlightOcr_single {text tok : String} (htok : tok ≠ "") :
    highlightOcr text [tok]
      = String.mk (markReplace (escapeHtmlL tok.toList) (escapeHtmlL text.toList)) := by
  unfold highlightOcr
  by_cases ht : text = ""
  · subst ht
    simp [escapeHtml, escapeHtmlL, replaceAllChar, markReplace, markReplaceAux,
      String.toList]
  · rw [if_neg (by simp [ht])]
    simp [htok]

/-! # Claim C2 — highlightOcr wraps occurrences -/

/-- **C2, counterexample.**  Tokens are replaced sequentially, so a later
token's occurrence can be destroyed by an earlier token's inserted tags:
with text `"ab"` and tokens `["b", "ab"]`, the occurrence of `"ab"`
(the whole text) is *not* wrapped — the output is `"a<mark>b</mark>"`
and contains no `<mark>ab</mark>`. -/
theorem C2_highlightOcr_cex :
    highlightOcr "ab" ["b", "ab"] = "a<mark>b</mark>"
      ∧ ciOccurs (escapeHtmlL "ab".toList) (escapeHtmlL "ab".toList) = true
      ∧ containsSeq "<mark>ab</mark>".toList
          (highlightOcr "ab" ["b", "ab"]).toList = false := by
  refine ⟨by decide, by decide, by decide⟩

/-- **C2, amended.**  `highlightOcr` HTML-escapes the text and applies
the non-empty tokens sequentially; each single pass wraps the
case-insensitive occurrences of the escaped token found by one
left-to-right non-overlapping scan of the *current already-marked*
string in `<mark>`/`</mark>`, preserving the occurrence's original
characters (stripping the inserted tags recovers the scanned string),
and a pass inserts a `<mark>` tag iff the escaped token occurs
case-insensitively in the scanned string; an occurrence overlapping an
earlier replacement may be missed.  When the text is empty or the token
list is empty or absent, exactly the HTML-escaped text is returned, with
no `<mark>` tags. -/
theorem C2_highlightOcr_amended (text tok : String) (tokens : List String)
    (htok : tok ≠ "") :
    (text = "" ∨ tokens = [] →
        highlightOcr text tokens = escapeHtml text
          ∧ containsSeq markTag (escapeHtml text).toList = false)
    ∧ highlightOcr text [tok]
        = String.mk (markReplace (escapeHtmlL tok.toList) (escapeHtmlL text.toList))
    ∧ stripMarks (markReplace (escapeHtmlL tok.toList) (escapeHtmlL text.toList))
        = escapeHtmlL text.toList
    ∧ (containsSeq markTag
          (markReplace (escapeHtmlL tok.toList) (escapeHtmlL text.toList)) = true
        ↔ ∃ u m v, escapeHtmlL text.toList = u ++ m ++ v
            ∧ m.map lowerChar = (escapeHtmlL tok.toList).map lowerChar) := by
  have hpat : escapeHtmlL tok.toList ≠ [] :=
    escapeHtmlL_ne_nil (fun hl => htok (toList_eq_nil_iff.mp hl))
  have hclean : ∀ c ∈ escapeHtmlL text.toList, c ≠ '<' :=
    fun c hc => (escapeHtmlL_clean hc).1
  refine ⟨?_, highlightOcr_single htok, stripMarks_markReplace hpat _ hclean, ?_⟩
  · intro h
    refine ⟨highlightOcr_empty h, ?_⟩
    rw [Bool.eq_false_iff]
    intro hcon
    rcases containsSeq_iff.mp hcon with ⟨u, v, huv⟩
    have : '<' ∈ (escapeHtml text).toList := by
      rw [huv, markTag_eq]
      simp
    exact (escapeHtmlL_clean this).1 rfl
  · rw [containsSeq_markTag_markReplace hpat _ hclean]
    exact ciOccurs_iff

/-- **C2, witness.**  A concrete run: stripping the inserted tags from
the marked OCR text recovers the escaped text. -/
theorem C2_highlightOcr_witness :
    stripMarks (markReplace (escapeHtmlL "error".toList)
        (escapeHtmlL "The Error 403 page".toList))
      = escapeHtmlL "The Error 403 page".toList :=
  (C2_highlightOcr_amended "The Error 403 page" "error" [] (by decide)).2.2.1

/-! # Claim C8 — escape-then-mark safety -/

/-- **C8, counterexample.**  A later token can match *inside* an earlier
inserted tag: with text `"ab"` and tokens `["ab", "mark"]` the second
pass wraps the `mark` inside `<mark>` and `</mark>`, leaving stray `<`
and `>` characters that are no longer delimiters of complete tags. -/
theorem C8_highlightOcr_cex :
    highlightOcr "ab" ["ab", "mark"] = "<<mark>mark</mark>>ab</<mark>mark</mark>>"
      ∧ tagsOk ((highlightOcr "ab" ["ab", "mark"]).toList) = false := by
  refine ⟨by decide, by decide⟩

/-- **C8, amended.**  HTML-escaping removes every raw `<`, `>` and `"`
coming from the input text, so the escaped text contributes no markup;
for a single-token list every `<`/`>` of the output delimits a complete
inserted `<mark>`/`</mark>` tag; and for arbitrary token lists every
output character still comes from the escaped text or from an inserted
tag — token text never reaches the output — but a later token may match
inside an earlier insertion, splitting its tags, so `<`/`>` need not
remain delimiters of well-formed tags. -/
theorem C8_highlightOcr_amended (text tok : String) (tokens : List String) :
    ('<' ∉ escapeHtmlL text.toList ∧ '>' ∉ escapeHtmlL text.toList
        ∧ '"' ∉ escapeHtmlL text.toList)
    ∧ tagsOk ((highlightOcr text [tok]).toList) = true
    ∧ ∀ c ∈ (highlightOcr text tokens).toList,
        c ∈ escapeHtmlL text.toList ∨ c ∈ markTag ∨ c ∈ markClose := by
  have hesc : ∀ c ∈ escapeHtmlL text.toList, c ≠ '<' ∧ c ≠ '>' :=
    fun c hc => ⟨(escapeHtmlL_clean hc).1, (escapeHtmlL_clean hc).2.1⟩
  refine ⟨⟨fun h => (escapeHtmlL_clean h).1 rfl, fun h => (escapeHtmlL_clean h).2.1 rfl,
      fun h => (escapeHtmlL_clean h).2.2 rfl⟩, ?_, ?_⟩
  · by_cases htok : tok = ""
    · subst htok
      have : highlightOcr text [""] = escapeHtml text := by
        unfold highlightOcr
        by_cases ht : text = ""
        · simp [ht]
        · rw [if_neg (by simp [ht])]
          rfl
      rw [this]
      exact tagsOk_clean hesc
    · rw [highlightOcr_single htok]
      exact tagsOk_markReplace
        (escapeHtmlL_ne_nil (fun hl => htok (toList_eq_nil_iff.mp hl))) _ hesc
  · have fold_mem : ∀ (toks : List String) (acc : List Char),
        (∀ c ∈ acc, c ∈ escapeHtmlL text.toList ∨ c ∈ markTag ∨ c ∈ markClose) →
        ∀ c ∈ toks.foldl
            (fun esc t => if t = "" then esc else markReplace (escapeHtmlL t.toList) esc)
            acc,
          c ∈ escapeHtmlL text.toList ∨ c ∈ markTag ∨ c ∈ markClose := by
      intro toks
      induction toks with
      | nil => intro acc hacc c hc; exact hacc c hc
      | cons t ts ih =>
        intro acc hacc c hc
        simp only [List.foldl_cons] at hc
        by_cases ht : t = ""
        · rw [if_pos ht] at hc
          exact ih acc hacc c hc
        · rw [if_neg ht] at hc
          refine ih _ ?_ c hc
          intro d hd
          rcases mem_markReplace
              (escapeHtmlL_ne_nil (fun hl => ht (toList_eq_nil_iff.mp hl))) acc d hd with
            h | h
          · exact hacc d h
          · exact Or.inr h
    intro c hc
    unfold highlightOcr at hc
    by_cases hcond : (text = "" || tokens.isEmpty) = true
    · rw [if_pos hcond] at hc
      exact Or.inl hc
    · rw [if_neg hcond] at hc
      exact fold_mem tokens (escapeHtmlL text.toList) (fun d hd => Or.inl hd) c hc

/-- **C8, witness.**  A concrete character of a highlighted output traced
to its origin. -/
theorem C8_highlightOcr_witness :
    'k' ∈ escapeHtmlL "mark it".toList ∨ 'k' ∈ markTag ∨ 'k' ∈ markClose :=
  (C8_highlightOcr_amended "mark it" "x" ["mark"]).2.2 'k' (by decide)

/-! # Claim C1 — query tokenization -/

/-- **C1, counterexample.**  The claim quantifies over every query
string, but for the empty query `queryTokens` returns the
engine-reported `matched_tokens` verbatim instead of computing the
lowercase/split/filter pipeline: a matched token like `"A"` (length 1,
uppercase) flows through unchanged. -/
theorem C1_queryTokens_cex :
    queryTokens "" ["A"] = ["A"]
      ∧ ¬ (∀ t ∈ queryTokens "" ["A"], t.length ≥ 2)
      ∧ ¬ (∀ t ∈ queryTokens "" ["A"], ∀ c ∈ t.toList,
            ¬ ('A' ≤ c ∧ c ≤ 'Z')) := by
  refine ⟨rfl, by decide, by decide⟩

/-- **C1, amended.**  For every *non-empty* query string the tokens are
computed by lowercasing the query, splitting on maximal runs of
non-alphanumeric characters and discarding tokens shorter than 2
characters; consequently every produced token has length at least 2 and
contains only lowercase ASCII letters and digits.  (For the empty query
the component falls back to the engine-reported `matched_tokens`,
used unchanged.) -/
theorem C1_queryTokens_amended (q : String) (m : List String) (hq : q ≠ "")
    (t : String) (ht : t ∈ queryTokens q m) :
    t.length ≥ 2 ∧ ∀ c ∈ t.toList, ('a' ≤ c ∧ c ≤ 'z') ∨ ('0' ≤ c ∧ c ≤ '9') := by
  unfold queryTokens at ht
  rw [if_neg hq] at ht
  rcases List.mem_filter.mp ht with ⟨hmem, hlen⟩
  rcases List.mem_map.mp hmem with ⟨g, hg, rfl⟩
  refine ⟨by simpa using of_decide_eq_true hlen, ?_⟩
  intro c hc
  have hc' : c ∈ g := hc
  rcases jsSplitOn_chars g hg c hc' with ⟨hin, hsep⟩
  have halnum : isAlnumAscii c = true := by
    simpa using hsep
  have hlow : ∃ y ∈ q.toList, lowerChar y = c := by
    simpa [toLowerStr] using hin
  rcases hlow with ⟨y, _, rfl⟩
  have hnup := lowerChar_not_upper y
  rcases Bool.or_eq_true .. ▸ halnum with h | h
  · rcases Bool.or_eq_true .. ▸ h with h | h
    · rcases Bool.and_eq_true .. ▸ h with ⟨h1, h2⟩
      exact Or.inl ⟨of_decide_eq_true h1, of_decide_eq_true h2⟩
    · rcases Bool.and_eq_true .. ▸ h with ⟨h1, h2⟩
      exact absurd ⟨of_decide_eq_true h1, of_decide_eq_true h2⟩ hnup
  · rcases Bool.and_eq_true .. ▸ h with ⟨h1, h2⟩
    exact Or.inr ⟨of_decide_eq_true h1, of_decide_eq_true h2⟩

/-- **C1, witness.**  A concrete run of the amended theorem on the
query `"Error 403!"` and its token `"error"`. -/
theorem C1_queryTokens_witness :
    "error".length ≥ 2
      ∧ ∀ c ∈ "error".toList, ('a' ≤ c ∧ c ≤ 'z') ∨ ('0' ≤ c ∧ c ≤ '9') :=
  C1_queryTokens_amended "Error 403!" [] (by decide) "error" (by decide)

/-! # Word-count support lemmas (claim C10) -/

theorem jsSplitOn_ne_nil (sep : Char → Bool) : ∀ l, jsSplitOn sep l ≠ [] := by
  intro l
  induction l with
  | nil => simp [jsSplitOn]
  | cons c rest ih =>
    simp only [jsSplitOn]
    by_cases hc : sep c
    · simp only [hc, if_true]
      cases rest with
      | nil => simp
      | cons d r =>
        by_cases hd : sep d
        · simpa [hd] using ih
        · simp [hd]
    · simp only [hc, Bool.false_eq_true, if_false]
      rcases hr : jsSplitOn sep rest with _ | ⟨g, gs⟩
      · simp
      · simp

theorem jsSplitOn_cons_length {sep : Char → Bool} {c : Char} (hc : sep c = false)
    (rest : List Char) :
    (jsSplitOn sep (c :: rest)).length = (jsSplitOn sep rest).length := by
  simp only [jsSplitOn, hc, Bool.false_eq_true, if_false]
  rcases hr : jsSplitOn sep rest with _ | ⟨g, gs⟩
  · exact absurd hr (jsSplitOn_ne_nil sep rest)
  · simp

theorem countRunsAux_sep_cons {sep : Char → Bool} {c : Char} (hc : sep c = true)
    (b : Bool) (rest : List Char) :
    countRunsAux sep b (c :: rest) = countRunsAux sep false rest := by
  simp [countRunsAux, hc]

theorem countRunsAux_word_cons {sep : Char → Bool} {c : Char} (hc : sep c = false)
    (rest : List Char) :
    countRunsAux sep true (c :: rest) = countRunsAux sep true rest
      ∧ countRunsAux sep false (c :: rest) = 1 + countRunsAux sep true rest := by
  constructor <;> simp [countRunsAux, hc]

/-- Fields of `jsSplitOn` versus run counting, for a list whose *last*
character is not a separator (or which is empty). -/
theorem jsSplitOn_length_eq (sep : Char → Bool) :
    ∀ l : List Char, (∀ c, l.getLast? = some c → sep c = false) →
      (jsSplitOn sep l).length = countRunsAux sep true l + 1 := by
  intro l
  induction l with
  | nil => intro _; rfl
  | cons c rest ih =>
    intro hlast
    by_cases hc : sep c = true
    · have hrest : rest ≠ [] := by
        rintro rfl
        exact absurd (hlast c rfl) (by simp [hc])
      rcases rest with _ | ⟨d, r⟩
      · exact absurd rfl hrest
      · have hlast' : ∀ x, (d :: r).getLast? = some x → sep x = false := by
          intro x hx
          exact hlast x (by simpa using hx)
        by_cases hd : sep d = true
        · have hsplit : jsSplitOn sep (c :: d :: r) = jsSplitOn sep (d :: r) := by
            simp [jsSplitOn, hc, hd]
          have hcount : countRunsAux sep true (c :: d :: r)
              = countRunsAux sep true (d :: r) := by
            rw [countRunsAux_sep_cons hc, countRunsAux_sep_cons hd,
              countRunsAux_sep_cons hd]
          rw [hsplit, hcount]
          exact ih hlast'
        · have hd' : sep d = false := by simpa using hd
          have hsplit : jsSplitOn sep (c :: d :: r) = [] :: jsSplitOn sep (d :: r) := by
            simp [jsSplitOn, hc, hd']
          rw [hsplit]
          have hlen := ih hlast'
          have hcount : countRunsAux sep true (c :: d :: r)
              = 1 + countRunsAux sep true (d :: r) := by
            rw [countRunsAux_sep_cons hc, (countRunsAux_word_cons hd' r).2,
              (countRunsAux_word_cons hd' r).1]
          rw [List.length_cons, hlen, hcount]
          omega
    · have hc' : sep c = false := by simpa using hc
      rw [jsSplitOn_cons_length hc', (countRunsAux_word_cons hc' rest).1]
      cases rest with
      | nil => rfl
      | cons d r =>
        exact ih (fun x hx => hlast x (by simpa using hx))

theorem countRunsAux_all_sep {sep : Char → Bool} :
    ∀ {w : List Char}, (∀ c ∈ w, sep c = true) → ∀ b, countRunsAux sep b w = 0 := by
  intro w
  induction w with
  | nil => intro _ b; rfl
  | cons c rest ih =>
    intro hw b
    rw [countRunsAux_sep_cons (hw c (List.mem_cons_self c rest))]
    exact ih (fun d hd => hw d (List.mem_cons_of_mem c hd)) false

theorem countRunsAux_append_sep {sep : Char → Bool} {w : List Char}
    (hw : ∀ c ∈ w, sep c = true) :
    ∀ (l : List Char) (b : Bool), countRunsAux sep b (l ++ w) = countRunsAux sep b l := by
  intro l
  induction l with
  | nil =>
    intro b
    rw [List.nil_append, countRunsAux_all_sep hw b]
    rfl
  | cons c rest ih =>
    intro b
    by_cases hc : sep c = true
    · rw [List.cons_append, countRunsAux_sep_cons hc, countRunsAux_sep_cons hc]
      exact ih false
    · have hc' : sep c = false := by simpa using hc
      simp only [List.cons_append, countRunsAux, hc', Bool.false_eq_true, if_false]
      rw [show rest.append w = rest ++ w from rfl, ih true]

theorem countRunsAux_dropWhile (sep : Char → Bool) :
    ∀ l : List Char, countRunsAux sep false (l.dropWhile sep) = countRunsAux sep false l := by
  intro l
  induction l with
  | nil => rfl
  | cons c rest ih =>
    by_cases hc : sep c = true
    · rw [List.dropWhile_cons_of_pos hc, countRunsAux_sep_cons hc]
      exact ih
    · have hc' : sep c = false := by simpa using hc
      rw [List.dropWhile_cons_of_neg (by simp [hc'])]

/-- `x.dropWhile sep` decomposes as its `rdropWhile` plus an all-`sep` tail. -/
theorem dropWhile_eq_rdrop_append (sep : Char → Bool) (x : List Char) :
    ∃ w, x = List.rdropWhile sep x ++ w ∧ ∀ c ∈ w, sep c = true := by
  refine ⟨(x.reverse.takeWhile sep).reverse, ?_, ?_⟩
  · conv_lhs => rw [← List.reverse_reverse x, ← List.takeWhile_append_dropWhile sep x.reverse]
    rw [List.reverse_append]
    rfl
  · intro c hc
    rw [List.mem_reverse] at hc
    exact List.mem_takeWhile_imp hc

theorem jsTrim_eq_rdrop (l : List Char) :
    jsTrim l = List.rdropWhile isWs (l.dropWhile isWs) := rfl

theorem countMaxRuns_jsTrim (l : List Char) :
    countMaxRuns isWs (jsTrim l) = countMaxRuns isWs l := by
  rcases dropWhile_eq_rdrop_append isWs (l.dropWhile isWs) with ⟨w, hw, hall⟩
  unfold countMaxRuns
  have h1 : countRunsAux isWs false l = countRunsAux isWs false (l.dropWhile isWs) :=
    (countRunsAux_dropWhile isWs l).symm
  have h2 : countRunsAux isWs false (l.dropWhile isWs)
      = countRunsAux isWs false (List.rdropWhile isWs (l.dropWhile isWs)) := by
    conv_lhs => rw [hw]
    rw [countRunsAux_append_sep hall]
  rw [jsTrim_eq_rdrop, h1, h2]

theorem jsTrim_nil_iff (l : List Char) :
    jsTrim l = [] ↔ ∀ c ∈ l, isWs c = true := by
  rw [jsTrim_eq_rdrop, List.rdropWhile_eq_nil_iff]
  constructor
  · intro h c hc
    have hsplit := List.takeWhile_append_dropWhile isWs l
    have hmem : c ∈ l.takeWhile isWs ++ l.dropWhile isWs := by
      rw [hsplit]
      exact hc
    rcases List.mem_append.mp hmem with h' | h'
    · exact List.mem_takeWhile_imp h'
    · exact h c h'
  · intro h c hc
    exact h c (List.dropWhile_sublist isWs |>.subset hc)

theorem head?_dropWhile_false {p : Char → Bool} :
    ∀ {l : List Char} {c : Char}, (l.dropWhile p).head? = some c → p c = false := by
  intro l
  induction l with
  | nil => intro c h; simp [List.dropWhile] at h
  | cons a rest ih =>
    intro c h
    by_cases ha : p a = true
    · rw [List.dropWhile_cons_of_pos ha] at h
      exact ih h
    · have ha' : p a = false := by simpa using ha
      rw [List.dropWhile_cons_of_neg (by simp [ha'])] at h
      rcases Option.some.injEq .. ▸ h with rfl
      simpa using ha'

theorem jsTrim_getLast_not_ws {l : List Char} {c : Char}
    (h : (jsTrim l).getLast? = some c) : isWs c = false := by
  rw [jsTrim_eq_rdrop] at h
  rw [List.rdropWhile, List.getLast?_reverse] at h
  exact head?_dropWhile_false h

/-! # Claim C10 — OCR word count -/

/-- **C10, confirmed.**  The reported `ocr_word_count` equals the number
of maximal whitespace-separated words of `ocr_preview`, and it is `0`
exactly when `ocr_preview` is absent, empty, or whitespace-only; the
`loadSuggestions` result mapping reports exactly this value. -/
theorem C10_ocrWordCount (p : Option String) :
    ocrWordCount p = countMaxRuns isWs (p.getD "").toList
      ∧ (ocrWordCount p = 0 ↔ ∀ c ∈ (p.getD "").toList, isWs c = true)
      ∧ ∀ (wDef hDef : Nat) (base : String) (fmt : Nat → String)
          (total i : Nat) (r : RawSearchResult),
          (mapResult wDef hDef base fmt total i r).artwork.ocr_word_count
            = ocrWordCount r.ocr_preview := by
  have main : ∀ q : Option String,
      ocrWordCount q = countMaxRuns isWs (q.getD "").toList := by
    intro q
    set l := (q.getD "").toList with hl
    unfold ocrWordCount
    by_cases ht : jsTrim l = []
    · rw [if_pos ht]
      have : ∀ c ∈ l, isWs c = true := (jsTrim_nil_iff l).mp ht
      exact (countRunsAux_all_sep this false).symm
    · rw [if_neg ht]
      have hlast : ∀ c, (jsTrim l).getLast? = some c → isWs c = false :=
        fun c hc => jsTrim_getLast_not_ws hc
      rw [jsSplitOn_length_eq isWs (jsTrim l) hlast]
      rcases htrim : jsTrim l with _ | ⟨c, t⟩
      · exact absurd htrim ht
      · have hc : isWs c = false := by
          have : (jsTrim l).head? = some c := by rw [htrim]; rfl
          have hpre := List.rdropWhile_prefix isWs (l.dropWhile isWs)
          rw [← jsTrim_eq_rdrop] at hpre
          rcases hpre with ⟨tail, htail⟩
          have : (l.dropWhile isWs).head? = some c := by
            rw [← htail, htrim]
            rfl
          exact head?_dropWhile_false this
        have h1 := (countRunsAux_word_cons hc t).1
        have h2 := (countRunsAux_word_cons hc t).2
        have : countRunsAux isWs true (c :: t) + 1 = countRunsAux isWs false (c :: t) := by
          rw [h1, h2]
          omega
        rw [this, ← htrim]
        show countMaxRuns isWs (jsTrim l) = countMaxRuns isWs l
        exact countMaxRuns_jsTrim l
  refine ⟨main p, ?_, ?_⟩
  · constructor
    · intro h0
      unfold ocrWordCount at h0
      by_cases ht : jsTrim (p.getD "").toList = []
      · exact (jsTrim_nil_iff _).mp ht
      · rw [if_neg ht] at h0
        have hlast : ∀ c, (jsTrim (p.getD "").toList).getLast? = some c →
            isWs c = false := fun c hc => jsTrim_getLast_not_ws hc
        rw [jsSplitOn_length_eq isWs _ hlast] at h0
        omega
    · intro hws
      unfold ocrWordCount
      rw [if_pos ((jsTrim_nil_iff _).mpr hws)]
  · intro wDef hDef base fmt total i r
    rfl

/-- **C10, witness.**  A concrete preview with irregular whitespace
counts exactly its two words. -/
theorem C10_ocrWordCount_witness :
    ocrWordCount (some "  hello   world ")
        = countMaxRuns isWs (((some "  hello   world ").getD "").toList)
      ∧ ocrWordCount (some "  hello   world ") = 2 :=
  ⟨(C10_ocrWordCount (some "  hello   world ")).1, by decide⟩

/-! # Claim C3 — indexing actions -/

/-- **C3, confirmed.**  Whenever the assembled folder list (selected
detected folders, plus the shown non-empty custom folder) is non-empty,
`startPersonalDemo` submits exactly
`{folders, ocr: true, device: "auto", recent_only: true, max_items: 200}`
and `startFullIndex` submits the same folders with `recent_only: false`
and no `max_items`; with an empty folder list neither handler submits,
and with zero selected detected folders both buttons are disabled. -/
theorem C3_indexActions (detected : List DetectedFolder) (showCustomFolder : Bool)
    (customFolder : String) (indexing : Bool) :
    (selectedPaths detected showCustomFolder customFolder ≠ [] →
        startPersonalDemo detected showCustomFolder customFolder
          = some { folders := selectedPaths detected showCustomFolder customFolder,
                   ocr := true, device := "auto", recent_only := true,
                   max_items := some 200 }
          ∧ startFullIndex detected showCustomFolder customFolder
            = some { folders := selectedPaths detected showCustomFolder customFolder,
                     ocr := true, device := "auto", recent_only := false,
                     max_items := none })
    ∧ (selectedPaths detected showCustomFolder customFolder = [] →
        startPersonalDemo detected showCustomFolder customFolder = none
          ∧ startFullIndex detected showCustomFolder customFolder = none)
    ∧ ((detected.filter (fun f => f.selected)).length = 0 →
        indexButtonsDisabled indexing detected = true)
    ∧ selectedPaths detected showCustomFolder customFolder
        = ((detected.filter (fun f => f.selected)).map (fun f => f.path))
          ++ (if showCustomFolder ∧ customFolder ≠ "" then [customFolder] else []) := by
  refine ⟨?_, ?_, ?_, rfl⟩
  · intro h
    constructor
    · unfold startPersonalDemo
      rw [if_neg h]
    · unfold startFullIndex
      rw [if_neg h]
  · intro h
    constructor
    · unfold startPersonalDemo
      rw [if_pos h]
    · unfold startFullIndex
      rw [if_pos h]
  · intro h
    simp [indexButtonsDisabled, h]

/-- **C3, witness.**  One selected folder plus a custom folder: both
handlers submit the documented payloads. -/
theorem C3_indexActions_witness :
    startPersonalDemo [⟨"/shots", 3, true, true⟩] true "/extra"
      = some ⟨["/shots", "/extra"], true, "auto", true, some 200⟩
      ∧ startFullIndex [⟨"/shots", 3, true, true⟩] true "/extra"
        = some ⟨["/shots", "/extra"], true, "auto", false, none⟩ :=
  (C3_indexActions [⟨"/shots", 3, true, true⟩] true "/extra" false).1 (by decide)

/-! # Claim C4 — local search request and score mapping -/

theorem score_mapIdx (f : Nat → RawSearchResult → SearchResult)
    (hf : ∀ i r, (f i r).score = r.score.getD 0) :
    ∀ rs : List RawSearchResult,
      (rs.mapIdx f).map (fun x => x.score) = rs.map (fun r => r.score.getD 0) := by
  intro rs
  induction rs generalizing f with
  | nil => rfl
  | cons r rest ih =>
    rw [List.mapIdx_cons, List.map_cons, List.map_cons, hf 0 r,
      ih (fun i => f (i + 1)) (fun i x => hf (i + 1) x)]

/-- **C4, confirmed.**  The local branch of `loadSuggestions` issues
exactly one POST to `/search` with body
`{query: text, k: n ?? 64, mode: "hybrid"}` — never `"visual"` or
`"text"` — and maps each response element to a `SearchResult` whose
score is the element's `score` field, defaulting to `0` when absent. -/
theorem C4_loadSuggestionsLocal (text : String) (n : Option Nat)
    (fmt : Nat → String) (rs : List RawSearchResult) :
    loadSuggestionsLocalRequests text n
        = [{ path := localBase ++ "/search",
             body := { query := text, k := n.getD 64, mode := "hybrid" } }]
      ∧ (localSearchBody text n).mode = "hybrid"
      ∧ (localSearchBody text n).mode ≠ "visual"
      ∧ (localSearchBody text n).mode ≠ "text"
      ∧ (∀ m, n = some m → (localSearchBody text n).k = m)
      ∧ (n = none → (localSearchBody text n).k = 64)
      ∧ (mapLocalResults fmt rs).length = rs.length
      ∧ (mapLocalResults fmt rs).map (fun x => x.score)
          = rs.map (fun r => r.score.getD 0)
      ∧ ∀ ok, ok = true →
          loadSuggestionsLocalOutcome fmt ok 200 rs = .ok (mapLocalResults fmt rs) := by
  refine ⟨rfl, rfl, (by decide : ("hybrid" : String) ≠ "visual"),
    (by decide : ("hybrid" : String) ≠ "text"), ?_, ?_, ?_, ?_, ?_⟩
  · rintro m rfl
    rfl
  · rintro rfl
    rfl
  · unfold mapLocalResults
    exact List.length_mapIdx
  · unfold mapLocalResults
    exact score_mapIdx _ (fun i r => rfl) rs
  · rintro ok rfl
    rfl

/-- **C4, witness.**  A concrete local request with `n = 12` and a
one-element response whose `score` field is absent. -/
theorem C4_loadSuggestionsLocal_witness :
    (localSearchBody "receipt" (some 12)).k = 12
      ∧ (mapLocalResults (fun _ => "") [{ path := "/a/b.png" }]).map
          (fun x => x.score) = [0] := by
  refine ⟨(C4_loadSuggestionsLocal "receipt" (some 12) (fun _ => "") []).2.2.2.2.1
    12 rfl, ?_⟩
  rw [(C4_loadSuggestionsLocal "receipt" (some 12) (fun _ => "")
    [{ path := "/a/b.png" }]).2.2.2.2.2.2.2.1]
  rfl

/-! # Claim C9 — demo fallback and local error propagation -/

/-- **C9, counterexample.**  `if (n) url += "&n=" + n` tests JS
truthiness, so a *provided* `n = 0` is not appended to the fallback
URL. -/
theorem C9_demoFallback_cex :
    demoFallbackUrl "q" (some 0)
        = "https://ekzhang--dispict-suggestions.modal.run?text=q"
      ∧ containsSeq "&n=".toList (demoFallbackUrl "q" (some 0)).toList = false := by
  refine ⟨by decide, by decide⟩

/-- **C9, amended.**  In demo mode a non-ok `/demo-search` response never
throws: `loadSuggestions` falls back to a GET of the upstream demo API
with the query URL-encoded and `n` appended when provided *and non-zero*
(a provided `n = 0` is falsy and is dropped); in local mode a non-ok
`/search` response always throws an error carrying the HTTP status. -/
theorem C9_demoFallback (fmt : Nat → String) (text : String) (n : Option Nat)
    (rs : List RawSearchResult) (status : Nat) :
    loadSuggestionsDemoOutcome fmt text n false rs
        = .fallbackFetch (demoFallbackUrl text n)
      ∧ (n = none →
          demoFallbackUrl text n = demoBase ++ "?text=" ++ encodeURIComponent text)
      ∧ (∀ m, n = some m → m ≠ 0 →
          demoFallbackUrl text n
            = demoBase ++ "?text=" ++ encodeURIComponent text ++ "&n=" ++ Nat.repr m)
      ∧ (n = some 0 →
          demoFallbackUrl text n = demoBase ++ "?text=" ++ encodeURIComponent text)
      ∧ loadSuggestionsLocalOutcome fmt false status rs
          = .error (localSearchFailureMsg status)
      ∧ ∃ u v, (localSearchFailureMsg status).toList
          = u ++ (Nat.repr status).toList ++ v := by
  refine ⟨rfl, ?_, ?_, ?_, rfl, ?_⟩
  · rintro rfl
    rfl
  · rintro m rfl hm
    show (if m ≠ 0 then demoBase ++ "?text=" ++ encodeURIComponent text
        ++ "&n=" ++ Nat.repr m
      else demoBase ++ "?text=" ++ encodeURIComponent text) = _
    rw [if_pos hm]
  · rintro rfl
    rfl
  · refine ⟨"Local search failed: ".toList, [], ?_⟩
    show (("Local search failed: " ++ Nat.repr status)).data = _
    rw [String.data_append, List.append_nil]
    rfl

/-- **C9, witness.**  A provided non-zero `n` is appended to the
fallback URL. -/
theorem C9_demoFallback_witness :
    demoFallbackUrl "cat" (some 5)
      = demoBase ++ "?text=" ++ encodeURIComponent "cat" ++ "&n=" ++ Nat.repr 5 :=
  (C9_demoFallback (fun _ => "") "cat" (some 5) [] 404).2.2.1 5 rfl (by decide)

/-! # Claim C5 — runIndex polling loop -/

theorem pollLoop_pending_iff (recentOnly : Bool) :
    ∀ snaps : List JobSnapshot,
      pollLoop recentOnly snaps = .pending ↔
        ∀ j ∈ snaps,
          j.status ≠ "done" ∧ j.status ≠ "error" ∧ j.status ≠ "cancelled" := by
  intro snaps
  induction snaps with
  | nil => simp [pollLoop]
  | cons j rest ih =>
    by_cases h1 : j.status = "done"
    · simp [pollLoop, h1]
    · by_cases h2 : j.status = "error"
      · simp [pollLoop, h1, h2]
      · by_cases h3 : j.status = "cancelled"
        · simp [pollLoop, h1, h2, h3]
        · simp only [pollLoop, h1, h2, h3, if_false, ih, List.mem_cons]
          constructor
          · intro h k hk
            rcases hk with rfl | hk
            · exact ⟨h1, h2, h3⟩
            · exact h k hk
          · intro h k hk
            exact h k (Or.inr hk)

theorem pollLoop_skip (recentOnly : Bool) :
    ∀ (pre rest : List JobSnapshot),
      (∀ p ∈ pre, p.status ≠ "done" ∧ p.status ≠ "error" ∧ p.status ≠ "cancelled") →
      pollLoop recentOnly (pre ++ rest) = pollLoop recentOnly rest := by
  intro pre
  induction pre with
  | nil => intro rest _; rfl
  | cons p ps ih =>
    intro rest hpre
    rcases hpre p (List.mem_cons_self p ps) with ⟨h1, h2, h3⟩
    rw [List.cons_append]
    show pollLoop recentOnly (p :: (ps ++ rest)) = _
    simp only [pollLoop, h1, h2, h3, if_false]
    exact ih rest (fun q hq => hpre q (List.mem_cons_of_mem p hq))

/-- **C5, confirmed.**  The polling loop of `runIndex` stops exactly on
the terminal statuses `done` / `error` / `cancelled`: `done` reports
success with the terminal status line, `error` throws the job's error
detail (defaulting to `"Index failed"`, which is also the failure status
line of a full index), `cancelled` throws `"Index cancelled"`, and any
other status polls again; in every terminated run the `indexing` flag is
cleared and the current job id reset to `null`. -/
theorem C5_runIndex (recentOnly : Bool) (id : String) (snaps : List JobSnapshot) :
    ((runIndexOutcome recentOnly (some id) snaps).isSome = true ↔
        ∃ j ∈ snaps, j.status = "done" ∨ j.status = "error" ∨ j.status = "cancelled")
      ∧ (∀ pre j rest, snaps = pre ++ j :: rest →
          (∀ p ∈ pre,
            p.status ≠ "done" ∧ p.status ≠ "error" ∧ p.status ≠ "cancelled") →
          (j.status = "done" →
            runIndexOutcome recentOnly (some id) snaps
              = some { statusLine := doneStatusLine recentOnly j.message,
                       indexing := false, currentJobId := none, thrown := none })
          ∧ (j.status = "error" →
            runIndexOutcome recentOnly (some id) snaps
              = some { statusLine := catchStatusLine recentOnly,
                       indexing := false, currentJobId := none,
                       thrown := some (j.error.getD "Index failed") })
          ∧ (j.status = "cancelled" →
            runIndexOutcome recentOnly (some id) snaps
              = some { statusLine := catchStatusLine recentOnly,
                       indexing := false, currentJobId := none,
                       thrown := some "Index cancelled" }))
      ∧ (∀ o, runIndexOutcome recentOnly (some id) snaps = some o →
          o.indexing = false ∧ o.currentJobId = none)
      ∧ (recentOnly = false → catchStatusLine recentOnly = "Index failed") := by
  refine ⟨?_, ?_, ?_, ?_⟩
  · constructor
    · intro hsome
      by_contra hno
      push_neg at hno
      have hpend : pollLoop recentOnly snaps = .pending :=
        (pollLoop_pending_iff recentOnly snaps).mpr hno
      unfold runIndexOutcome at hsome
      rw [hpend] at hsome
      simp at hsome
    · rintro ⟨j, hj, hterm⟩
      have hne : pollLoop recentOnly snaps ≠ .pending := by
        intro hpend
        rcases (pollLoop_pending_iff recentOnly snaps).mp hpend j hj with ⟨h1, h2, h3⟩
        rcases hterm with h | h | h
        · exact h1 h
        · exact h2 h
        · exact h3 h
      unfold runIndexOutcome
      rcases hcase : pollLoop recentOnly snaps with line | e | _
      · rfl
      · rfl
      · exact absurd hcase hne
  · intro pre j rest hsnaps hpre
    have hskip : pollLoop recentOnly snaps = pollLoop recentOnly (j :: rest) := by
      rw [hsnaps]
      exact pollLoop_skip recentOnly pre (j :: rest) hpre
    refine ⟨?_, ?_, ?_⟩
    · intro hst
      have hp : pollLoop recentOnly snaps
          = .finished (doneStatusLine recentOnly j.message) := by
        rw [hskip]
        simp [pollLoop, hst]
      unfold runIndexOutcome
      rw [hp]
    · intro hst
      have hp : pollLoop recentOnly snaps = .failed (j.error.getD "Index failed") := by
        rw [hskip]
        simp [pollLoop, hst]
      unfold runIndexOutcome
      rw [hp]
    · intro hst
      have hp : pollLoop recentOnly snaps = .failed "Index cancelled" := by
        rw [hskip]
        simp [pollLoop, hst]
      unfold runIndexOutcome
      rw [hp]
  · intro o ho
    unfold runIndexOutcome at ho
    rcases hcase : pollLoop recentOnly snaps with line | e | _ <;> rw [hcase] at ho
    · rcases Option.some.injEq .. ▸ ho with rfl
      exact ⟨rfl, rfl⟩
    · rcases Option.some.injEq .. ▸ ho with rfl
      exact ⟨rfl, rfl⟩
    · simp at ho
  · rintro rfl
    rfl

/-- **C5, witness.**  A run observing `running` then `error`: the loop
stops, throws the job's error detail, and clears the flags. -/
theorem C5_runIndex_witness :
    runIndexOutcome false (some "job-1")
        [{ status := "running", processed := 0, total := 0,
           message := none, error := none },
         { status := "error", processed := 1, total := 2,
           message := some "m", error := some "boom" }]
      = some { statusLine := "Index failed", indexing := false,
               currentJobId := none, thrown := some "boom" } :=
  ((C5_runIndex false "job-1"
      [{ status := "running", processed := 0, total := 0,
         message := none, error := none },
       { status := "error", processed := 1, total := 2,
         message := some "m", error := some "boom" }]).2.1
    [{ status := "running", processed := 0, total := 0,
       message := none, error := none }]
    { status := "error", processed := 1, total := 2,
      message := some "m", error := some "boom" }
    [] rfl (by decide)).2.1 rfl

/-! # Claim C6 — terminal status line of a done job -/

/-- **C6, confirmed.**  A full (non-`recent_only`) job that finishes
`done` renders `"Index up to date"` exactly when its terminal message
contains all of `"+0 new"`, `"~0 updated"` and `"-0 removed"`, and
`"Index updated"` otherwise; a `recent_only` job that finishes `done`
always renders `"Personal demo ready!"`. -/
theorem C6_doneStatusLine (message : Option String) (j : JobSnapshot)
    (rest : List JobSnapshot) :
    (doneStatusLine false message = "Index up to date" ↔
        (∃ u v, (message.getD "").toList = u ++ "+0 new".toList ++ v)
          ∧ (∃ u v, (message.getD "").toList = u ++ "~0 updated".toList ++ v)
          ∧ (∃ u v, (message.getD "").toList = u ++ "-0 removed".toList ++ v))
      ∧ (doneStatusLine false message = "Index up to date"
          ∨ doneStatusLine false message = "Index updated")
      ∧ doneStatusLine true message = "Personal demo ready!"
      ∧ (j.status = "done" →
          pollLoop false (j :: rest) = .finished (doneStatusLine false j.message)
            ∧ pollLoop true (j :: rest) = .finished (doneStatusLine true j.message)) := by
  have hincl : ∀ t : String, includesStr (message.getD "") t = true ↔
      ∃ u v, (message.getD "").toList = u ++ t.toList ++ v := by
    intro t
    exact containsSeq_iff
  refine ⟨?_, ?_, ?_, ?_⟩
  · unfold doneStatusLine
    by_cases hc : (includesStr (message.getD "") "+0 new"
        && includesStr (message.getD "") "~0 updated"
        && includesStr (message.getD "") "-0 removed") = true
    · rw [if_pos (by simpa using hc)]
      simp only [Bool.and_eq_true] at hc
      simp only [true_iff]
      exact ⟨(hincl _).mp hc.1.1, (hincl _).mp hc.1.2, (hincl _).mp hc.2⟩
    · rw [if_neg (by simpa using hc)]
      rw [if_neg (by decide)]
      constructor
      · intro h
        exact absurd h (by decide)
      · rintro ⟨h1, h2, h3⟩
        exact absurd (by
          simp only [Bool.and_eq_true]
          exact ⟨⟨(hincl _).mpr h1, (hincl _).mpr h2⟩, (hincl _).mpr h3⟩) hc
  · unfold doneStatusLine
    by_cases hc : (includesStr (message.getD "") "+0 new"
        && includesStr (message.getD "") "~0 updated"
        && includesStr (message.getD "") "-0 removed") = true
    · rw [if_pos (by simpa using hc)]
      exact Or.inl rfl
    · rw [if_neg (by simpa using hc), if_neg (by decide)]
      exact Or.inr rfl
  · rfl
  · intro hst
    constructor <;> simp [pollLoop, hst]

/-- **C6, witness.**  A `done` snapshot with the idempotent summary
message yields the `"Index up to date"` status line. -/
theorem C6_doneStatusLine_witness :
    pollLoop false
        [{ status := "done", processed := 5, total := 5,
           message := some "+0 new, ~0 updated, -0 removed", error := none }]
      = .finished (doneStatusLine false (some "+0 new, ~0 updated, -0 removed"))
      ∧ doneStatusLine false (some "+0 new, ~0 updated, -0 removed")
        = "Index up to date" := by
  refine ⟨((C6_doneStatusLine (some "+0 new, ~0 updated, -0 removed")
      { status := "done", processed := 5, total := 5,
        message := some "+0 new, ~0 updated, -0 removed", error := none }
      []).2.2.2 rfl).1, by decide⟩

/-! # Claim C7 — refreshStatus rendering -/

/-- **C7, counterexample.**  `if (data.last_indexed_at)` tests JS
truthiness, so a *present* but empty `last_indexed_at` renders no
last-indexed label, contradicting "exactly when present". -/
theorem C7_refreshStatus_cex :
    (refreshStatusView (fun s => s)
        (some { indexed := true, assets := 1, with_ocr := 1,
                last_indexed_at := some "" }) "prev").lastIndexedLabel = ""
      ∧ (Option.some "").isSome = true
      ∧ (refreshStatusView (fun s => s)
          (some { indexed := true, assets := 1, with_ocr := 1,
                  last_indexed_at := some "" }) "prev").statusLine
        = "Indexed 1 items • OCR 1/1" := by
  refine ⟨by decide, rfl, by decide⟩

/-- **C7, amended.**  `refreshStatus` renders `"Not indexed yet"` when
the response's `indexed` field is falsy, and otherwise the line
`"Indexed {assets} items • OCR {with_ocr}/{assets}"` plus a last-indexed
label exactly when `last_indexed_at` is present *with a non-empty
(truthy) value*; a failed status request renders the engine-not-running
message; and `refreshStatus` only issues a single bodyless GET of
`/status`, never an indexing or mutating request. -/
theorem C7_refreshStatus (fmt : String → String) (resp : Option StatusResponse)
    (prevLabel : String) :
    (resp = none →
        refreshStatusView fmt resp prevLabel
          = { statusLine := "Local engine not running (start API server on :8008)",
              lastIndexedLabel := prevLabel })
      ∧ (∀ data, resp = some data → data.indexed = false →
          refreshStatusView fmt resp prevLabel
            = { statusLine := "Not indexed yet", lastIndexedLabel := prevLabel })
      ∧ (∀ data, resp = some data → data.indexed = true →
          (refreshStatusView fmt resp prevLabel).statusLine
            = "Indexed " ++ Nat.repr data.assets ++ " items • OCR "
              ++ Nat.repr data.with_ocr ++ "/" ++ Nat.repr data.assets
          ∧ (∀ v, data.last_indexed_at = some v → v ≠ "" →
              (refreshStatusView fmt resp prevLabel).lastIndexedLabel
                = "Last indexed: " ++ fmt v)
          ∧ (data.last_indexed_at = none ∨ data.last_indexed_at = some "" →
              (refreshStatusView fmt resp prevLabel).lastIndexedLabel = ""))
      ∧ refreshStatusRequests = [{ method := "GET", path := localBase ++ "/status" }]
      ∧ ∀ r ∈ refreshStatusRequests, r.method = "GET" := by
  refine ⟨?_, ?_, ?_, rfl, ?_⟩
  · rintro rfl
    rfl
  · rintro data rfl hdata
    simp [refreshStatusView, hdata]
  · rintro data rfl hdata
    refine ⟨?_, ?_, ?_⟩
    · simp [refreshStatusView, hdata]
    · intro v hv hne
      simp [refreshStatusView, hdata, hv, hne]
    · intro hcase
      rcases hcase with hv | hv <;> simp [refreshStatusView, hdata, hv]
  · intro r hr
    rcases List.mem_singleton.mp hr with rfl
    rfl

/-- **C7, witness.**  A successful indexed response with a non-empty
timestamp renders both the counts line and the last-indexed label. -/
theorem C7_refreshStatus_witness :
    (refreshStatusView (fun s => s)
        (some { indexed := true, assets := 12, with_ocr := 7,
                last_indexed_at := some "2024-01-01" }) "").statusLine
      = "Indexed 12 items • OCR 7/12"
      ∧ (refreshStatusView (fun s => s)
          (some { indexed := true, assets := 12, with_ocr := 7,
                  last_indexed_at := some "2024-01-01" }) "").lastIndexedLabel
        = "Last indexed: 2024-01-01" := by
  have h := (C7_refreshStatus (fun s => s)
      (some { indexed := true, assets := 12, with_ocr := 7,
              last_indexed_at := some "2024-01-01" }) "").2.2.1
      { indexed := true, assets := 12, with_ocr := 7,
        last_indexed_at := some "2024-01-01" } rfl rfl
  constructor
  · rw [h.1]
    decide
  · rw [h.2.1 "2024-01-01" rfl (by decide)]
    decide

end Merlian
